import Mathlib

/-!
# Verification of the ome-zarr-converters-tools core

This file is a shallow embedding, in Lean 4, of the two hard subsystems of the
`ome-zarr-converters-tools` repository:

* the lazy chunked compositor (`core/_dask_lazy_loader.py`), embedded over `Nat`
  index arithmetic with abstract element values, and
* the tile-placement machinery (`v1/_tile.py`, `_grid_utils.py`,
  `_stitching.py`), embedded over exact rationals `ℚ`.

Embedding conventions, used throughout:

* Python floats are modelled as exact rationals.  The helper functions
  `_round_add` / `_round_sub` in `v1/_tile.py` re-round a float sum to the
  decimal precision of the printed operands; under the exact-rational
  idealisation a sum of two values already holds at the operands' precision,
  so these helpers are modelled as exact `+` / `-`.
* Square roots (`lengthXY`, the `sqrt(2)` pixel-gap threshold) never escape
  the program: every use is a comparison or an argmin over non-negative
  values.  We therefore embed squared XY lengths and translate each
  comparison through the strict monotonicity of `sqrt` on nonnegatives;
  each translated comparison is documented at its definition.
* `numpy` reductions (`sort`, `diff`, `min`, `argmin`, `allclose`, `round`)
  are given direct functional models (`List.mergeSort`, `diffsQ`, `minQ`,
  `argminQ`, `allcloseB`, `npRound`); `np.allclose` uses its documented
  tolerances `rtol = 1e-5`, `atol = 1e-8`, and `np.round` rounds half to
  even.
* Fallible code is modelled with `Except` / `Option`; the unbounded
  `while` loop of free-mode overlap resolution is modelled with explicit
  fuel, `none` meaning that the Python code raised or did not terminate
  within the given number of passes.
* Dask materialisation executes each graph key at most once (per-key
  memoisation) and executes exactly the keys reachable from the requested
  output chunks.  The number of invocations of a loader is therefore `1`
  if some output-chunk task references its key and `0` otherwise.
-/

/-! ## Part 1: the lazy compositor (`core/_dask_lazy_loader.py`)

The output array has `shape : List Nat` and chunk sizes `chunks : List Nat`.
A region is a tuple of per-axis `(start, stop)` bounds plus a loader; the
loader is modelled by the value it produces at each local index of the
loaded block. -/

/-- A compositor region: explicit per-axis `(start, stop)` bounds plus a
loader, modelled by the value of the loaded array at a given local index
(the loader is assumed to return an array of the region's shape and of the
target dtype, as the source requires). -/
structure RegionM (α : Type) where
  bounds : List (Nat × Nat)
  load : List Nat → α

/-- `_normalize_slice`: the effect of `slice.indices(dim)` on a slice with
non-negative `start`/`stop`, i.e. clamping both to `[0, dim]`. -/
def normalizeSlice (s : Nat × Nat) (dim : Nat) : Nat × Nat :=
  (min s.1 dim, min s.2 dim)

/-- Per-region bounds normalisation performed by `lazy_array_from_regions`. -/
def normalizeBounds (bs : List (Nat × Nat)) (shape : List Nat) : List (Nat × Nat) :=
  (bs.zip shape).map (fun p => normalizeSlice p.1 p.2)

/-- Number of chunks along one axis, i.e. the length of
`range(0, dim_size, chunk_size)` for `chunk_size > 0`. -/
def numChunks (dim cs : Nat) : Nat := (dim + cs - 1) / cs

/-- `_build_chunk_ranges`, one axis: the `(start, stop)` pair of every chunk. -/
def axisRanges (dim cs : Nat) : List (Nat × Nat) :=
  (List.range (numChunks dim cs)).map (fun k => (k * cs, min (k * cs + cs) dim))

/-- `_build_chunk_ranges`. -/
def buildChunkRanges (shape chunks : List Nat) : List (List (Nat × Nat)) :=
  (shape.zip chunks).map (fun p => axisRanges p.1 p.2)

/-- `bisect.bisect_right` applied to a sorted list equals the number of
elements `≤ x`; the code only applies it to the sorted chunk starts. -/
def bisectRight (l : List Nat) (x : Nat) : Nat :=
  l.countP (fun s => decide (s ≤ x))

/-- `bisect.bisect_left` applied to a sorted list equals the number of
elements `< x`. -/
def bisectLeft (l : List Nat) (x : Nat) : Nat :=
  l.countP (fun s => decide (s < x))

/-- Membership of a chunk index `c` in the per-axis chunk-index range
`range(max(0, first), min(last, n))` computed in `_build_chunk_to_loaders`
(`first = bisect_right(starts, lo) - 1`, `last = bisect_left(starts, hi)`;
truncated `Nat` subtraction coincides with `max(0, first)` because
`bisect_right ≥ 0`). -/
def inAxisSpan (starts : List Nat) (n lo hi c : Nat) : Bool :=
  decide (bisectRight starts lo - 1 ≤ c) && decide (c < min (bisectLeft starts hi) n)

/-- Is the chunk with per-axis indices `ci` among the chunks against which a
loader with bounds `lb` is registered by `_build_chunk_to_loaders`? -/
def spanContains (cr : List (List (Nat × Nat))) (lb : List (Nat × Nat))
    (ci : List Nat) : Bool :=
  (cr.zip (lb.zip ci)).all (fun p =>
    inAxisSpan (p.1.map Prod.fst) p.1.length p.2.1.1 p.2.1.2 p.2.2)

/-- `chunk_to_loaders[ci]`: the loader indices registered against chunk `ci`,
in increasing index order (the dict is built by appending, iterating loaders
in index order). -/
def chunkLoaders (cr : List (List (Nat × Nat))) (allBounds : List (List (Nat × Nat)))
    (ci : List Nat) : List Nat :=
  (List.range allBounds.length).filter (fun li => spanContains cr (allBounds.getD li []) ci)

/-- Does the half-open box `lb` contain the global point `p` (pointwise
`start ≤ p < stop`)? -/
def containsPt (lb : List (Nat × Nat)) (p : List Nat) : Bool :=
  (lb.zip p).all (fun q => decide (q.1.1 ≤ q.2) && decide (q.2 < q.1.2))

/-- Local coordinates of global point `p` inside the box `lb`. -/
def localIdx (lb : List (Nat × Nat)) (p : List Nat) : List Nat :=
  (lb.zip p).map (fun q => q.2 - q.1.1)

/-- Pointwise bounds check `p < shape` (the points of the output array). -/
def inShape (p shape : List Nat) : Bool :=
  (p.zip shape).all (fun q => decide (q.1 < q.2))

/-- Per-point semantics of `_composite_chunk` at a global point of the chunk:
the output starts as `fill_value` and each loader, in argument order, writes
`data[p - lb.start]` at every point `p` of the intersection of its bounds
with the chunk, so the value at `p` is the last writer containing `p`, else
fill.  (For `p` inside the chunk, `p` lies in the intersection iff it lies in
the loader's bounds.) -/
def compositeAt {α : Type} (fill : α) (loaders : List (RegionM α)) (p : List Nat) : α :=
  loaders.foldl
    (fun acc r => if containsPt r.bounds p then r.load (localIdx r.bounds p) else acc)
    fill

/-- The per-axis chunk indices of the chunk containing point `p`
(chunk starts are the multiples of the chunk size). -/
def chunkIdxOf (chunks p : List Nat) : List Nat :=
  (p.zip chunks).map (fun q => q.1 / q.2)

/-- The `(start, stop)` bounds of the chunk with per-axis indices `ci`. -/
def chunkBoundsOf (shape chunks ci : List Nat) : List (Nat × Nat) :=
  (ci.zip (chunks.zip shape)).map
    (fun q => (q.1 * q.2.1, min (q.1 * q.2.1 + q.2.1) q.2.2))

/-- The `fully_covers` test of `lazy_array_from_regions` case 2a. -/
def fullyCovers (lb cb : List (Nat × Nat)) : Bool :=
  (cb.zip lb).all (fun q => decide (q.2.1 ≤ q.1.1) && decide (q.1.2 ≤ q.2.2))

/-- Placeholder region used for (provably in-range) list indexing. -/
def junkRegion {α : Type} (fill : α) : RegionM α := ⟨[], fun _ => fill⟩

/-- The value of the materialised lazy array at global point `p`, following
the plan built by `lazy_array_from_regions` for the chunk containing `p`:
no registered loader gives the shared fill node; a single fully-covering
loader gives the zero-copy `getitem` view (whose value at `p` is
`data[p - lb.start]`); otherwise `_composite_chunk` runs over the registered
loaders in index order. -/
def lazyValueAt {α : Type} (regions : List (RegionM α)) (shape chunks : List Nat)
    (fill : α) (p : List Nat) : α :=
  let normed := regions.map (fun r => RegionM.mk (normalizeBounds r.bounds shape) r.load)
  let cr := buildChunkRanges shape chunks
  let ci := chunkIdxOf chunks p
  let cb := chunkBoundsOf shape chunks ci
  let lis := chunkLoaders cr (normed.map RegionM.bounds) ci
  match lis with
  | [] => fill
  | [li] =>
    let r := normed.getD li (junkRegion fill)
    if fullyCovers r.bounds cb then r.load (localIdx r.bounds p)
    else compositeAt fill [r] p
  | _ => compositeAt fill (lis.map (fun li => normed.getD li (junkRegion fill))) p

/-- Specification-side definition, from the spec's words: the output value at
any point equals the value from the last (by input order) region containing
it, else `fill_value`.  To be compared with `lazyValueAt`. -/
def lastWriterAt {α : Type} (fill : α) (regions : List (RegionM α)) (p : List Nat) : α :=
  match (regions.filter (fun r => containsPt r.bounds p)).getLast? with
  | some r => r.load (localIdx r.bounds p)
  | none => fill

/-- The output-chunk tasks of the plan, by case: a shared fill node keyed by
the chunk shape, a zero-copy `getitem` view of one loader node, or a
`_composite_chunk` task holding `(loader key, bounds)` pairs. -/
inductive ChunkTask where
  | fillShared (cshape : List Nat)
  | view (li : Nat) (src : List (Nat × Nat))
  | composite (cb : List (Nat × Nat)) (pairs : List (Nat × List (Nat × Nat)))

/-- The task emitted for output chunk `ci` by `lazy_array_from_regions`,
given the normalised bounds of all regions. -/
def outputTask (shape chunks : List Nat) (allBounds : List (List (Nat × Nat)))
    (ci : List Nat) : ChunkTask :=
  let cr := buildChunkRanges shape chunks
  let cb := chunkBoundsOf shape chunks ci
  let lis := chunkLoaders cr allBounds ci
  match lis with
  | [] => ChunkTask.fillShared (cb.map (fun q => q.2 - q.1))
  | [li] =>
    let lb := allBounds.getD li []
    if fullyCovers lb cb then
      ChunkTask.view li ((cb.zip lb).map (fun q => (q.1.1 - q.2.1, q.1.2 - q.2.1)))
    else ChunkTask.composite cb [(li, lb)]
  | _ => ChunkTask.composite cb (lis.map (fun li => (li, allBounds.getD li [])))

/-- The loader-node keys a chunk task references (all references are keys
`(loader_layer_name, li)` into the single loader layer). -/
def taskRefs : ChunkTask → List Nat
  | ChunkTask.fillShared _ => []
  | ChunkTask.view li _ => [li]
  | ChunkTask.composite _ pairs => pairs.map Prod.fst

/-- The loader layer: one graph key per region, in region order. -/
def loaderLayerKeys {α : Type} (regions : List (RegionM α)) : List Nat :=
  List.range regions.length

/-- `itertools.product` of `range n` for each `n` in the list. -/
def natProduct : List Nat → List (List Nat)
  | [] => [[]]
  | n :: rest => (List.range n).flatMap (fun i => (natProduct rest).map (fun t => i :: t))

/-- All output chunk indices of the plan. -/
def allChunkIdxs (shape chunks : List Nat) : List (List Nat) :=
  natProduct ((shape.zip chunks).map (fun p => numChunks p.1 p.2))

/-- Is the loader node of region `li` referenced by some output-chunk task?
Under dask's reachability-driven, per-key-memoised execution this decides
whether materialising the whole array runs the loader at all. -/
def loaderInvoked (shape chunks : List Nat) (allBounds : List (List (Nat × Nat)))
    (li : Nat) : Bool :=
  (allChunkIdxs shape chunks).any
    (fun ci => (taskRefs (outputTask shape chunks allBounds ci)).contains li)

/-- Number of times materialising the whole array invokes the loader of
region `li`: one graph key exists per region, every reference is to that key,
and dask computes a key once iff it is reachable from a requested chunk. -/
def invocationCount (shape chunks : List Nat) (allBounds : List (List (Nat × Nat)))
    (li : Nat) : Nat :=
  if loaderInvoked shape chunks allBounds li then 1 else 0

/-! ## Part 2: geometry kernel (`v1/_tile.py`)

Python floats are modelled as exact rationals; `c` and `t` are integers as in
the source.  A `TileQ` carries the geometric and conversion state of a
`Tile`; the `origin` provenance, the optional known `shape` (taken to be
`None`, so that `derive_from_diag` honours the diagonal it is given) and the
data loader do not influence any of the algorithms verified here and are not
modelled. -/

/-- `Point`: 5D point. -/
structure PointQ where
  x : ℚ
  y : ℚ
  z : ℚ
  c : ℤ
  t : ℤ
deriving DecidableEq, Repr

/-- `Vector`: 5D vector. -/
structure VectorQ where
  x : ℚ
  y : ℚ
  z : ℚ
  c : ℤ
  t : ℤ
deriving DecidableEq, Repr

/-- `PixelSize` (from `ngio`): per-axis scale factors. -/
structure PixelSizeQ where
  x : ℚ
  y : ℚ
  z : ℚ
deriving DecidableEq, Repr

/-- `TileSpace`. -/
inductive TileSpaceQ where
  | pixel
  | real
deriving DecidableEq, Repr

/-- The geometric state of a `Tile`. -/
structure TileQ where
  top_l : PointQ
  diag : VectorQ
  pixel_size : PixelSizeQ
  space : TileSpaceQ
deriving DecidableEq, Repr

/-- Truncation toward zero, the effect of Python `int()` on a number. -/
def ratTrunc (q : ℚ) : ℤ :=
  if 0 ≤ q then ⌊q⌋ else -⌊-q⌋

/-- `Point.__add__` (a vector): exact model of `_round_add` per-coordinate
(see the header: re-rounding to the operands' decimal precision is the
identity under the exact-rational idealisation). -/
def pAddV (p : PointQ) (v : VectorQ) : PointQ :=
  ⟨p.x + v.x, p.y + v.y, p.z + v.z, p.c + v.c, p.t + v.t⟩

/-- `Point.__sub__` (a point), yielding a vector; exact model of
`_round_sub` per-coordinate. -/
def pSubP (p q : PointQ) : VectorQ :=
  ⟨p.x - q.x, p.y - q.y, p.z - q.z, p.c - q.c, p.t - q.t⟩

/-- `Vector.__mul__` by a scalar (`c` and `t` are truncated back to `int`). -/
def vMulQ (v : VectorQ) (s : ℚ) : VectorQ :=
  ⟨v.x * s, v.y * s, v.z * s, ratTrunc ((v.c : ℚ) * s), ratTrunc ((v.t : ℚ) * s)⟩

/-- Squared `Vector.lengthXY`; the source's `(x² + y²) ** 0.5` is only ever
used inside comparisons and argmins, which we translate through the strict
monotonicity of the square root on nonnegatives. -/
def sqLengthXY (v : VectorQ) : ℚ := v.x ^ 2 + v.y ^ 2

/-- `Vector.to_pixel_space`: `x, y, z` divided by the pixel size and
truncated by `int()`; `c`, `t` untouched. -/
def vToPixelSpace (v : VectorQ) (ps : PixelSizeQ) : VectorQ :=
  ⟨(ratTrunc (v.x / ps.x) : ℤ), (ratTrunc (v.y / ps.y) : ℤ), (ratTrunc (v.z / ps.z) : ℤ), v.c, v.t⟩

/-- `Vector.to_real_space`: `x, y, z` multiplied by the pixel size; `c`, `t`
untouched. -/
def vToRealSpace (v : VectorQ) (ps : PixelSizeQ) : VectorQ :=
  ⟨v.x * ps.x, v.y * ps.y, v.z * ps.z, v.c, v.t⟩

/-- `Point.to_pixel_space`. -/
def pToPixelSpace (p : PointQ) (ps : PixelSizeQ) : PointQ :=
  ⟨(ratTrunc (p.x / ps.x) : ℤ), (ratTrunc (p.y / ps.y) : ℤ), (ratTrunc (p.z / ps.z) : ℤ), p.c, p.t⟩

/-- `Point.to_real_space`. -/
def pToRealSpace (p : PointQ) (ps : PixelSizeQ) : PointQ :=
  ⟨p.x * ps.x, p.y * ps.y, p.z * ps.z, p.c, p.t⟩

/-- `Tile.bot_r = top_l + diag`. -/
def botR (t : TileQ) : PointQ := pAddV t.top_l t.diag

/-- `Tile.derive_from_diag`: a new tile with the given corner and diagonal,
keeping pixel size and space (and, in the source, the origin provenance). -/
def derive_from_diag (t : TileQ) (top_l : PointQ) (diag : VectorQ) : TileQ :=
  ⟨top_l, diag, t.pixel_size, t.space⟩

/-- `Tile.move_by`. -/
def moveBy (t : TileQ) (v : VectorQ) : TileQ :=
  derive_from_diag t (pAddV t.top_l v) t.diag

/-- `Tile.to_pixel_space` (errors when the tile is already in pixel space). -/
def tileToPixelSpace (t : TileQ) : Except String TileQ :=
  match t.space with
  | TileSpaceQ.pixel => Except.error "Tile is already in pixel space"
  | TileSpaceQ.real =>
    Except.ok ⟨pToPixelSpace t.top_l t.pixel_size, vToPixelSpace t.diag t.pixel_size,
      t.pixel_size, TileSpaceQ.pixel⟩

/-- `Tile.to_real_space` (errors when the tile is already in real space). -/
def tileToRealSpace (t : TileQ) : Except String TileQ :=
  match t.space with
  | TileSpaceQ.real => Except.error "Tile is already in real space"
  | TileSpaceQ.pixel =>
    Except.ok ⟨pToRealSpace t.top_l t.pixel_size, vToRealSpace t.diag t.pixel_size,
      t.pixel_size, TileSpaceQ.real⟩

/-- `Tile.cornersXY`: the four XY corners, carrying the top-left `z, c, t`. -/
def cornersXY (t : TileQ) : List PointQ :=
  let br := botR t
  [⟨t.top_l.x, t.top_l.y, t.top_l.z, t.top_l.c, t.top_l.t⟩,
   ⟨t.top_l.x, br.y, t.top_l.z, t.top_l.c, t.top_l.t⟩,
   ⟨br.x, br.y, t.top_l.z, t.top_l.c, t.top_l.t⟩,
   ⟨br.x, t.top_l.y, t.top_l.z, t.top_l.c, t.top_l.t⟩]

/-- `Tile.areaXY`. -/
def areaXY (t : TileQ) : ℚ := t.diag.x * t.diag.y

/-- `Tile._is_overlappingXY` (closed-box XY overlap test). -/
def isOverlappingRawXY (a b : TileQ) : Bool :=
  decide (a.top_l.x ≤ (botR b).x) && decide (b.top_l.x ≤ (botR a).x) &&
  decide (a.top_l.y ≤ (botR b).y) && decide (b.top_l.y ≤ (botR a).y)

/-- `Tile.intersection_area_XY`.  The source first raises unless the two
tiles are coplanar; the stitching pipeline establishes coplanarity up front
(`check_tiles_coplanar`) and every configuration in this file is coplanar,
so the check is not modelled. -/
def intersection_area_XY (a b : TileQ) : ℚ :=
  let minx := max a.top_l.x b.top_l.x
  let miny := max a.top_l.y b.top_l.y
  let maxx := min (botR a).x (botR b).x
  let maxy := min (botR a).y (botR b).y
  if minx > maxx ∨ miny > maxy then 0 else (maxx - minx) * (maxy - miny)

/-- `Tile.iouXY`.  (The source raises when the union is nonpositive with a
positive intersection; this cannot happen for tiles whose diagonal is
componentwise nonnegative, which `Tile._validate` enforces.) -/
def iouXY (a b : TileQ) : ℚ :=
  if ¬ isOverlappingRawXY a b then 0
  else
    let ai := intersection_area_XY a b
    if ai ≤ 0 then 0
    else ai / (areaXY a + areaXY b - ai)

/-- `Tile.is_overlappingXY`. -/
def is_overlappingXY (eps : ℚ) (a b : TileQ) : Bool :=
  isOverlappingRawXY a b && decide (iouXY a b > eps)

/-! ## Part 3: grid detection (`_grid_utils.py`) -/

/-- `np.allclose` default absolute tolerance `1e-8`. -/
def atolQ : ℚ := 1 / 100000000

/-- `np.allclose` default relative tolerance `1e-5`. -/
def rtolQ : ℚ := 1 / 100000

/-- The `1e-6` epsilon used for offset filtering, the slant check and
overlap detection. -/
def epsGrid : ℚ := 1 / 1000000

/-- `np.allclose(l, r)` for a scalar `r`: every element within
`atol + rtol·|r|` of `r`. -/
def allcloseB (l : List ℚ) (r : ℚ) : Bool :=
  l.all (fun v => decide (|v - r| ≤ atolQ + rtolQ * |r|))

/-- `np.sort` on rationals. -/
def sortQ (l : List ℚ) : List ℚ := l.mergeSort (fun a b => decide (a ≤ b))

/-- `np.diff`: consecutive differences. -/
def diffsQ (l : List ℚ) : List ℚ := l.zipWith (fun a b => b - a) l.tail

/-- Python `max` over a list (raises on empty; every caller passes a
non-empty list). -/
def pyMaxQ : List ℚ → ℚ
  | [] => 0
  | [x] => x
  | x :: y :: xs => max x (pyMaxQ (y :: xs))

/-- `np.min` over a list (raises on empty; callers guard non-emptiness). -/
def minQ : List ℚ → ℚ
  | [] => 0
  | [x] => x
  | x :: y :: xs => min x (minQ (y :: xs))

/-- `np.argmin`: the first index attaining the minimum. -/
def argminQ : List ℚ → Nat
  | [] => 0
  | [_] => 0
  | x :: y :: xs => if x ≤ minQ (y :: xs) then 0 else argminQ (y :: xs) + 1

/-- `np.round`: round half to even, as an integer (`int(np.round(v))`). -/
def npRound (q : ℚ) : ℤ :=
  if q - ⌊q⌋ < 1 / 2 then ⌊q⌋
  else if 1 / 2 < q - ⌊q⌋ then ⌊q⌋ + 1
  else if ⌊q⌋ % 2 = 0 then ⌊q⌋ else ⌊q⌋ + 1

/-- `GridSetup`. -/
structure GridSetupQ where
  length_x : ℚ
  length_y : ℚ
  offset_x : ℚ
  offset_y : ℚ
  num_x : ℤ
  num_y : ℤ
deriving DecidableEq, Repr

/-- `GridSetup()` with all fields defaulted. -/
def gridSetupZero : GridSetupQ := ⟨0, 0, 0, 0, 0, 0⟩

/-- The typed failure reasons of `check_if_regular_grid` (the source returns
message strings; their formatted payloads are dropped). -/
inductive GridFailure where
  | emptyTiles
  | onlyOneTile
  | unequalLengthsX
  | unequalLengthsY
  | unequalOffsetsX
  | unequalOffsetsY
  | slanted
deriving DecidableEq, Repr

/-- `_find_grid_size`.  The division is exact-rational; the source performs
float division, which raises `ZeroDivisionError` when the offset is `0` —
`check_if_regular_grid` always passes offsets `> 1e-6`, and
`remove_pixel_gaps` (the only other caller) guards the zero case
explicitly. -/
def find_grid_size (tiles : List TileQ) (ox oy : ℚ) : ℤ × ℤ :=
  let xs := tiles.map (fun t => t.top_l.x)
  let ys := tiles.map (fun t => t.top_l.y)
  (npRound (pyMaxQ xs / ox) + 1, npRound (pyMaxQ ys / oy) + 1)

/-- The per-tile widths `bot_r.x - top_l.x` of test 1. -/
def tileLengthsX (tiles : List TileQ) : List ℚ :=
  tiles.map (fun b => (botR b).x - b.top_l.x)

/-- The per-tile heights `bot_r.y - top_l.y` of test 1. -/
def tileLengthsY (tiles : List TileQ) : List ℚ :=
  tiles.map (fun b => (botR b).y - b.top_l.y)

/-- Test 2's surviving offsets for one axis: sort the start coordinates,
diff, drop differences `≤ 1e-6`. -/
def offsetsFilt (coords : List ℚ) : List ℚ :=
  (diffsQ (sortQ coords)).filter (fun d => decide (d > epsGrid))

/-- Test 2's offset selection: default `1.0` when no difference survives,
else the first surviving difference provided all are `allclose` to it. -/
def pickOffset (offs : List ℚ) : Option ℚ :=
  match offs with
  | [] => some 1
  | o :: _ => if allcloseB offs o then some o else none

/-- Test 3: `True` when the for-else fires, i.e. every tile after the first
is displaced by at least `1e-6` on both axes from the first tile (the loop
breaks — grid *not* slanted — at the first tile with a displacement below
`1e-6` on some axis). -/
def slantAll (tiles : List TileQ) : Bool :=
  match tiles with
  | [] => true
  | t0 :: rest =>
    rest.all (fun tile =>
      decide (epsGrid ≤ tile.top_l.x - t0.top_l.x) &&
      decide (epsGrid ≤ tile.top_l.y - t0.top_l.y))

/-- `check_if_regular_grid`. -/
def check_if_regular_grid (tiles : List TileQ) : Option GridFailure × GridSetupQ :=
  match tiles with
  | [] => (some GridFailure.emptyTiles, gridSetupZero)
  | [_] => (some GridFailure.onlyOneTile, gridSetupZero)
  | _ =>
    match tileLengthsX tiles with
    | [] => (some GridFailure.emptyTiles, gridSetupZero)
    | lx :: _ =>
      if ¬ allcloseB (tileLengthsX tiles) lx then
        (some GridFailure.unequalLengthsX, gridSetupZero)
      else
        match tileLengthsY tiles with
        | [] => (some GridFailure.emptyTiles, gridSetupZero)
        | ly :: _ =>
          if ¬ allcloseB (tileLengthsY tiles) ly then
            (some GridFailure.unequalLengthsY, gridSetupZero)
          else
            match pickOffset (offsetsFilt (tiles.map (fun t => t.top_l.x))) with
            | none => (some GridFailure.unequalOffsetsX, gridSetupZero)
            | some ox =>
              match pickOffset (offsetsFilt (tiles.map (fun t => t.top_l.y))) with
              | none => (some GridFailure.unequalOffsetsY, gridSetupZero)
              | some oy =>
                if 2 < tiles.length ∧ slantAll tiles then
                  (some GridFailure.slanted, gridSetupZero)
                else
                  match tileLengthsX tiles, tileLengthsY tiles with
                  | lx0 :: _, ly0 :: _ =>
                    let nxy := find_grid_size tiles ox oy
                    (none, ⟨lx0, ly0, ox, oy, nxy.1, nxy.2⟩)
                  | _, _ => (some GridFailure.emptyTiles, gridSetupZero)

/-! ## Part 4: stitching (`_stitching.py`) -/

/-- Typed failures of the stitching core (the source raises `ValueError`s;
`emptyInput` is the `ValueError` raised by `min([])` inside
`sort_tiles_by_distance`). -/
inductive StitchFailure where
  | emptyInput
  | notRegularGrid (r : GridFailure)
  | countMismatch
deriving DecidableEq, Repr

/-- Placeholder tile for (provably in-range) list indexing. -/
def dummyTile : TileQ :=
  ⟨⟨0, 0, 0, 0, 0⟩, ⟨0, 0, 0, 0, 0⟩, ⟨1, 1, 1⟩, TileSpaceQ.real⟩

/-- `_min_point` (callers guarantee non-empty input; Python `min([])`
raises). -/
def min_point (tiles : List TileQ) : PointQ :=
  ⟨minQ (tiles.map (fun t => t.top_l.x)), minQ (tiles.map (fun t => t.top_l.y)), 0, 0, 0⟩

/-- `sort_tiles_by_distance`: stable sort by XY distance of `top_l` from the
minimum corner (compared via squared lengths). -/
def sort_tiles_by_distance (tiles : List TileQ) : List TileQ :=
  let mp := min_point tiles
  tiles.mergeSort (fun a b =>
    decide (sqLengthXY (pSubP a.top_l mp) ≤ sqLengthXY (pSubP b.top_l mp)))

/-- `_remove_tile_XY_overalap` (source spelling), with `speed` fixed by its
only caller to `1` (the guard `0 < speed ≤ 1` passes) and `eps` at its
default `1e-6`.  The candidate list is non-empty for tiles with nonnegative
sizes (placing the query's corner at the reference's bottom-right always
yields IoU 0), so the `np.argmin` of the source never sees an empty list;
the model indexes with a default for totality. -/
def remove_tile_XY_overalap (ref query : TileQ) (eps speed : ℚ) : TileQ :=
  let cands := (cornersXY ref).filterMap (fun corner =>
    let vec := pSubP corner query.top_l
    let moved := moveBy query vec
    if iouXY moved ref < eps then some (sqLengthXY vec, vec) else none)
  let idx := argminQ (cands.map Prod.fst)
  let best := (cands.getD idx (0, ⟨0, 0, 0, 0, 0⟩)).2
  moveBy query (vMulQ best speed)

/-- The inner `for j in range(i+1, n)` scan of `resolve_random_tiles_overlap`
(the index list `js` is instantiated with `range(i+1, len(tiles))`): find the
first `j` whose tile overlaps tile `i`, returning `j` and the moved
replacement (the loop breaks after one fix). -/
def innerFind (eps : ℚ) (ts : List TileQ) (i : Nat) : List Nat → Option (Nat × TileQ)
  | [] => none
  | j :: rest =>
    if is_overlappingXY eps (ts.getD i dummyTile) (ts.getD j dummyTile) then
      some (j, remove_tile_XY_overalap (ts.getD i dummyTile) (ts.getD j dummyTile) epsGrid 1)
    else innerFind eps ts i rest

/-- One full pass of the outer `for i` loop: for each `i` in order, apply the
first fix found by the inner scan (updating the list in place) and count the
fixes. -/
def passScan (eps : ℚ) : List TileQ → List Nat → Nat → List TileQ × Nat
  | ts, [], n => (ts, n)
  | ts, i :: rest, n =>
    match innerFind eps ts i (List.range' (i + 1) (ts.length - (i + 1))) with
    | some (j, moved) => passScan eps (ts.set j moved) rest (n + 1)
    | none => passScan eps ts rest n

/-- The `while n_overlap > 0` loop of `resolve_random_tiles_overlap`, with
fuel bounding the number of passes.  Each iteration sorts by distance, runs
one pass, and exits when the pass found no overlap. -/
def whileResolve (eps : ℚ) : Nat → List TileQ → Option (List TileQ)
  | 0, _ => none
  | fuel + 1, tiles =>
    let sorted := sort_tiles_by_distance tiles
    let res := passScan eps sorted (List.range sorted.length) 0
    if res.2 = 0 then some res.1 else whileResolve eps fuel res.1

/-- `resolve_random_tiles_overlap`.  `none` means the Python code raised
(`min([])` on an empty list) or did not converge within `fuel` passes. -/
def resolve_random_tiles_overlap (eps : ℚ) (fuel : Nat) (tiles : List TileQ) :
    Option (List TileQ) :=
  match tiles with
  | [] => none
  | _ :: _ => whileResolve eps fuel tiles

/-- The translation of `min_dist < grid_tolerance` to squared distances:
for `d ≥ 0`, `sqrt d < tol ↔ 0 < tol ∧ d < tol²`. -/
def sqLtTol (sq tol : ℚ) : Bool :=
  decide (0 < tol) && decide (sq < tol ^ 2)

/-- The cell-assignment double loop of `resolve_grid_tiles_overlap`: for each
grid cell `(i, j)` the input-space anchor is `(i·offset_x, j·offset_y)`; if
the nearest tile lies within `min(length_x, length_y)/100` the tile is
re-derived at the output-space position `(i·length_x, j·length_y)`.  The
`z, c, t` carried by the anchors and outputs come from the first tile of the
(sorted) input list. -/
def gridAssign (tiles : List TileQ) (gs : GridSetupQ) : List TileQ :=
  match tiles with
  | [] => []
  | t0 :: _ =>
    let tol := min gs.length_x gs.length_y / 100
    (List.range gs.num_x.toNat).flatMap (fun i : ℕ =>
      (List.range gs.num_y.toNat).filterMap (fun j : ℕ =>
        let pt : PointQ :=
          ⟨(i : ℚ) * gs.offset_x, (j : ℚ) * gs.offset_y, t0.top_l.z, t0.top_l.c, t0.top_l.t⟩
        let dists := tiles.map (fun b => sqLengthXY (pSubP pt b.top_l))
        if sqLtTol (minQ dists) tol then
          let closest := tiles.getD (argminQ dists) dummyTile
          some (derive_from_diag closest
            ⟨(i : ℚ) * gs.length_x, (j : ℚ) * gs.length_y, t0.top_l.z, t0.top_l.c, t0.top_l.t⟩
            closest.diag)
        else none))

/-- `resolve_grid_tiles_overlap`. -/
def resolve_grid_tiles_overlap (tiles : List TileQ) (gs : GridSetupQ) :
    Except StitchFailure (List TileQ) :=
  match tiles with
  | [] => Except.error StitchFailure.emptyInput
  | _ :: _ =>
    let sorted := sort_tiles_by_distance tiles
    let out := gridAssign sorted gs
    if out.length ≠ tiles.length then Except.error StitchFailure.countMismatch
    else Except.ok out

/-- `_resolve_auto_mode`: try grid detection; on success run grid resolution
(whose failures propagate — they are *not* caught), otherwise fall back to
free-mode resolution and report `"free"`. -/
def resolve_auto_mode (fuel : Nat) (tiles : List TileQ) :
    Option (Except StitchFailure (List TileQ × String)) :=
  match check_if_regular_grid tiles with
  | (none, gs) => some ((resolve_grid_tiles_overlap tiles gs).map (fun ts => (ts, "grid")))
  | (some _, _) =>
    (resolve_random_tiles_overlap epsGrid fuel tiles).map (fun ts => Except.ok (ts, "free"))

/-- `_resolve_grid_mode`: grid detection failure is fatal. -/
def resolve_grid_mode (tiles : List TileQ) : Except StitchFailure (List TileQ) :=
  match check_if_regular_grid tiles with
  | (some r, _) => Except.error (StitchFailure.notRegularGrid r)
  | (none, gs) => resolve_grid_tiles_overlap tiles gs

/-- The translation of `min_dist ≤ max_gap` to squared distances, where
`max_gap = sqrt(g² + g²) + 1e-6 = |g|·√2 + 1e-6`.  For `d ≥ 0`:
`sqrt d ≤ |g|√2 + 1e-6 ↔ d ≤ 2g² + 1e-12 + (2·|g|·1e-6)·√2
↔ A ≤ B√2` with `A = d - 2g² - 1e-12` and `B = 2·|g|·1e-6 ≥ 0`,
`↔ A ≤ 0 ∨ A² ≤ 2B²`. -/
def gapLeThreshold (sq : ℚ) (g : ℤ) : Bool :=
  let A : ℚ := sq - 2 * (g : ℚ) ^ 2 - 1 / 1000000000000
  let B : ℚ := 2 * |(g : ℚ)| * (1 / 1000000)
  decide (A ≤ 0) || decide (A ^ 2 ≤ 2 * B ^ 2)

/-- `remove_pixel_gaps`.  `none` models the Python failures: the `assert`s
(empty input, first tile not in pixel space) and the `ZeroDivisionError`
raised inside `_find_grid_size` when the first tile has a zero-size axis. -/
def remove_pixel_gaps (g : ℤ) (tiles : List TileQ) : Option (List TileQ) :=
  match tiles with
  | [] => none
  | t0 :: _ =>
    if t0.space ≠ TileSpaceQ.pixel then none
    else if t0.diag.x = 0 ∨ t0.diag.y = 0 then none
    else
      let ox := t0.diag.x
      let oy := t0.diag.y
      let nxy := find_grid_size tiles ox oy
      some ((List.range nxy.1.toNat).flatMap (fun i =>
        (List.range nxy.2.toNat).filterMap (fun j : ℕ =>
          let pt : PointQ :=
            ⟨(i : ℚ) * ox, (j : ℚ) * oy, t0.top_l.z, t0.top_l.c, t0.top_l.t⟩
          let dists := tiles.map (fun b => sqLengthXY (pSubP pt b.top_l))
          if gapLeThreshold (minQ dists) g then
            let closest := tiles.getD (argminQ dists) dummyTile
            some (derive_from_diag closest pt closest.diag)
          else none)))

/-! ## Part 5: specification-side constructions and concrete instances -/

/-- A perfectly regular `R`-row-by-`C`-column lattice of equal-size tiles
(from the spec's words): tile `(i, j)` sits at `(i·ox, j·oy)`; all tiles
share the diagonal `d`, the plane coordinates `z0, c0, t0`, the pixel size
and the space tag.  Enumerated row-major. -/
def latticeTiles (R C : ℕ) (ox oy : ℚ) (d : VectorQ) (z0 : ℚ) (c0 t0 : ℤ)
    (ps : PixelSizeQ) (sp : TileSpaceQ) : List TileQ :=
  (List.range R).flatMap (fun j : ℕ =>
    (List.range C).map (fun i : ℕ => ⟨⟨(i : ℚ) * ox, (j : ℚ) * oy, z0, c0, t0⟩, d, ps, sp⟩))

/-- Ascending blocks of repeated values with a constant step `L`:
`m₀` copies of `v`, then `m₁` copies of `v + L`, and so on.  The canonical
shape of a sorted coordinate list whose distinct values are consecutive
multiples of `L`. -/
def stepBlocks (v L : ℚ) : List ℕ → List ℚ
  | [] => []
  | m :: ms => List.replicate m v ++ stepBlocks (v + L) L ms

/-- Convenience constructor: a coplanar tile at `(x, y)` of XY size `(w, h)`
in the given space. -/
def mkTileXY (x y w h : ℚ) (sp : TileSpaceQ) : TileQ :=
  ⟨⟨x, y, 0, 0, 0⟩, ⟨w, h, 1, 1, 1⟩, ⟨1, 1, 1⟩, sp⟩

/-- A 2×2 lattice with per-axis offsets `5e-7` (positive but below the
`1e-6` filtering threshold) and unit tile size. -/
def cexTinyOffsetTiles : List TileQ :=
  [mkTileXY 0 0 1 1 TileSpaceQ.real,
   mkTileXY (1 / 2000000) 0 1 1 TileSpaceQ.real,
   mkTileXY 0 (1 / 2000000) 1 1 TileSpaceQ.real,
   mkTileXY (1 / 2000000) (1 / 2000000) 1 1 TileSpaceQ.real]

/-- Three unit tiles on an exact diagonal: every non-reference displacement
is non-degenerate on both axes. -/
def diagTiles : List TileQ :=
  [mkTileXY 0 0 1 1 TileSpaceQ.real,
   mkTileXY 1 1 1 1 TileSpaceQ.real,
   mkTileXY 2 2 1 1 TileSpaceQ.real]

/-- Two unit tiles whose IoU is exactly `1e-6`: the overlap strip has width
`2/1000001`, giving IoU `= (2/1000001)/(2 - 2/1000001) = 1e-6`. -/
def cexBoundaryPair : List TileQ :=
  [mkTileXY 0 0 1 1 TileSpaceQ.real,
   mkTileXY (1 - 2 / 1000001) 0 1 1 TileSpaceQ.real]

/-- Two far-apart unit tiles (already overlap-free). -/
def farPair : List TileQ :=
  [mkTileXY 0 0 1 1 TileSpaceQ.real, mkTileXY 5 0 1 1 TileSpaceQ.real]

/-- An L-shaped input for grid snapping: unit tiles at `(1,1)`, `(0,0)`,
`(1,2)` (columns `{0,1}`, rows `{0,1,2}`, with cells `(0,1)`, `(0,2)`,
`(1,0)` vacant). -/
def cexSnapInput : List TileQ :=
  [mkTileXY 1 1 1 1 TileSpaceQ.real,
   mkTileXY 0 0 1 1 TileSpaceQ.real,
   mkTileXY 1 2 1 1 TileSpaceQ.real]

/-- The successful grid-mode output for `cexSnapInput`: the same cells at
canonical positions, enumerated in cell order.  Its first tile shares no row
or column with the other two, so re-detection declares it slanted. -/
def cexSnapped : List TileQ :=
  [mkTileXY 0 0 1 1 TileSpaceQ.real,
   mkTileXY 1 1 1 1 TileSpaceQ.real,
   mkTileXY 1 2 1 1 TileSpaceQ.real]

/-- A pixel-space tile with a zero-size x axis: `remove_pixel_gaps` divides
by `tiles[0].diag.x` inside `_find_grid_size`. -/
def zeroSizeTile : TileQ :=
  ⟨⟨0, 0, 0, 0, 0⟩, ⟨0, 5, 1, 1, 1⟩, ⟨1, 1, 1⟩, TileSpaceQ.pixel⟩

/-- Pixel-space pair for pixel-gap closing: one tile at the origin anchor,
one at `(5, 5)`, farther than the gap threshold from every anchor of the
`10×10` lattice derived from the first tile. -/
def gapPair : List TileQ :=
  [mkTileXY 0 0 10 10 TileSpaceQ.pixel, mkTileXY 5 5 10 10 TileSpaceQ.pixel]

/-- A single region whose slices are empty at position zero: it is
registered against no chunk, so its loader node is unreachable. -/
def cexEmptyRegion : List (RegionM ℕ) :=
  [⟨[(0, 0), (0, 0)], fun _ => 7⟩]

/-- Two overlapping regions on a `4×4` canvas: the second overwrites the
first on `[1,4)×[1,4)`. -/
def twoRegions : List (RegionM ℕ) :=
  [⟨[(0, 3), (0, 3)], fun _ => 1⟩, ⟨[(1, 4), (1, 4)], fun _ => 2⟩]

/-- The pixel-space version of `dummyTile`, i.e. `tileToPixelSpace` of it. -/
def dummyTilePix : TileQ :=
  ⟨⟨0, 0, 0, 0, 0⟩, ⟨0, 0, 0, 0, 0⟩, ⟨1, 1, 1⟩, TileSpaceQ.pixel⟩

deriving instance DecidableEq for Except

/-! ## Theorems -/

/-- Claim C9: for every `Point`, `Vector`, and `Tile`, the space conversions
`to_pixel_space` and `to_real_space` leave the `c` and `t` components
unchanged; only `x, y, z` are rescaled by the per-axis pixel size. -/
theorem space_conversions_never_scale_ct
    (p : PointQ) (v : VectorQ) (a b : TileQ) (ps : PixelSizeQ)
    (u u' : TileQ) (hu : tileToPixelSpace a = Except.ok u)
    (hu' : tileToRealSpace b = Except.ok u') :
    (pToPixelSpace p ps).c = p.c ∧ (pToPixelSpace p ps).t = p.t ∧
    (pToRealSpace p ps).c = p.c ∧ (pToRealSpace p ps).t = p.t ∧
    (vToPixelSpace v ps).c = v.c ∧ (vToPixelSpace v ps).t = v.t ∧
    (vToRealSpace v ps).c = v.c ∧ (vToRealSpace v ps).t = v.t ∧
    (u.top_l.c = a.top_l.c ∧ u.top_l.t = a.top_l.t ∧
      u.diag.c = a.diag.c ∧ u.diag.t = a.diag.t) ∧
    (u'.top_l.c = b.top_l.c ∧ u'.top_l.t = b.top_l.t ∧
      u'.diag.c = b.diag.c ∧ u'.diag.t = b.diag.t) := by
  refine ⟨rfl, rfl, rfl, rfl, rfl, rfl, rfl, rfl, ?_, ?_⟩
  · unfold tileToPixelSpace at hu
    cases hs : a.space <;> rw [hs] at hu
    · exact absurd hu (by simp)
    · rw [Except.ok.injEq] at hu
      subst hu
      exact ⟨rfl, rfl, rfl, rfl⟩
  · unfold tileToRealSpace at hu'
    cases hs : b.space <;> rw [hs] at hu'
    · rw [Except.ok.injEq] at hu'
      subst hu'
      exact ⟨rfl, rfl, rfl, rfl⟩
    · exact absurd hu' (by simp)

/-- Witness for C9 at concrete inputs. -/
theorem space_conversions_never_scale_ct_witness :
    tileToPixelSpace dummyTile = Except.ok dummyTilePix ∧
    tileToRealSpace dummyTilePix = Except.ok dummyTile ∧
    ((pToPixelSpace ⟨1, 2, 3, 4, 5⟩ ⟨2, 2, 2⟩).c = 4 ∧
      (pToPixelSpace ⟨1, 2, 3, 4, 5⟩ ⟨2, 2, 2⟩).t = 5 ∧
      (pToRealSpace ⟨1, 2, 3, 4, 5⟩ ⟨2, 2, 2⟩).c = 4 ∧
      (pToRealSpace ⟨1, 2, 3, 4, 5⟩ ⟨2, 2, 2⟩).t = 5 ∧
      (vToPixelSpace ⟨1, 2, 3, 4, 5⟩ ⟨2, 2, 2⟩).c = 4 ∧
      (vToPixelSpace ⟨1, 2, 3, 4, 5⟩ ⟨2, 2, 2⟩).t = 5 ∧
      (vToRealSpace ⟨1, 2, 3, 4, 5⟩ ⟨2, 2, 2⟩).c = 4 ∧
      (vToRealSpace ⟨1, 2, 3, 4, 5⟩ ⟨2, 2, 2⟩).t = 5 ∧
      (dummyTilePix.top_l.c = dummyTile.top_l.c ∧
        dummyTilePix.top_l.t = dummyTile.top_l.t ∧
        dummyTilePix.diag.c = dummyTile.diag.c ∧
        dummyTilePix.diag.t = dummyTile.diag.t) ∧
      (dummyTile.top_l.c = dummyTilePix.top_l.c ∧
        dummyTile.top_l.t = dummyTilePix.top_l.t ∧
        dummyTile.diag.c = dummyTilePix.diag.c ∧
        dummyTile.diag.t = dummyTilePix.diag.t)) :=
  ⟨(by simp [tileToPixelSpace, tileToRealSpace, dummyTile, dummyTilePix, pToPixelSpace, vToPixelSpace, pToRealSpace, vToRealSpace, ratTrunc]), (by simp [tileToPixelSpace, tileToRealSpace, dummyTile, dummyTilePix, pToPixelSpace, vToPixelSpace, pToRealSpace, vToRealSpace, ratTrunc]),
    space_conversions_never_scale_ct ⟨1, 2, 3, 4, 5⟩ ⟨1, 2, 3, 4, 5⟩ dummyTile
      dummyTilePix ⟨2, 2, 2⟩ dummyTilePix dummyTile (by simp [tileToPixelSpace, tileToRealSpace, dummyTile, dummyTilePix, pToPixelSpace, vToPixelSpace, pToRealSpace, vToRealSpace, ratTrunc]) (by simp [tileToPixelSpace, tileToRealSpace, dummyTile, dummyTilePix, pToPixelSpace, vToPixelSpace, pToRealSpace, vToRealSpace, ratTrunc])⟩

/-- Claim C7: in `auto` mode a grid-detection failure is never fatal — the
resolver falls back to free-mode resolution and reports mode `"free"` —
whereas in explicit `grid` mode the same detection failure raises and no
tile list is returned. -/
theorem auto_mode_survives_grid_detection_failure
    (fuel : Nat) (tiles : List TileQ) (r : GridFailure)
    (hfail : (check_if_regular_grid tiles).1 = some r) :
    resolve_auto_mode fuel tiles =
      (resolve_random_tiles_overlap epsGrid fuel tiles).map
        (fun ts => Except.ok (ts, "free")) ∧
    resolve_grid_mode tiles = Except.error (StitchFailure.notRegularGrid r) := by
  rcases hck : check_if_regular_grid tiles with ⟨e, gs⟩
  rw [hck] at hfail
  simp only at hfail
  subst hfail
  constructor
  · unfold resolve_auto_mode
    rw [hck]
  · unfold resolve_grid_mode
    rw [hck]

unseal Rat.sub Rat.add Rat.mul Rat.inv Nat.gcd List.mergeSort List.merge in
/-- Witness for C7: a single tile fails detection with `onlyOneTile`; auto
mode returns the free-mode result tagged `"free"`, grid mode errors. -/
theorem auto_mode_survives_grid_detection_failure_witness :
    (check_if_regular_grid [dummyTile]).1 = some GridFailure.onlyOneTile ∧
    (resolve_auto_mode 1 [dummyTile] =
      (resolve_random_tiles_overlap epsGrid 1 [dummyTile]).map
        (fun ts => Except.ok (ts, "free")) ∧
    resolve_grid_mode [dummyTile] =
      Except.error (StitchFailure.notRegularGrid GridFailure.onlyOneTile)) :=
  ⟨by decide,
    auto_mode_survives_grid_detection_failure 1 [dummyTile] GridFailure.onlyOneTile
      (by decide)⟩

unseal Rat.sub Rat.add Rat.mul Rat.inv Nat.gcd List.mergeSort List.merge in
/-- Claim C4 counterexample: three equal-size tiles on an exact diagonal pass
the size and offset checks, and a non-reference tile with displacement
non-degenerate (≥ 1e-6) on both axes exists, yet `check_if_regular_grid`
*does* declare the grid slanted — the claim's quantifier is inverted. -/
theorem slant_check_quantifier_cex :
    (∃ t ∈ diagTiles.tail,
      epsGrid ≤ t.top_l.x - (diagTiles.headD dummyTile).top_l.x ∧
      epsGrid ≤ t.top_l.y - (diagTiles.headD dummyTile).top_l.y) ∧
    (check_if_regular_grid diagTiles).1 = some GridFailure.slanted := by decide

/-- Claim C4 (amended): for a list of more than 2 tiles passing the
equal-size and equal-offset checks, the grid is declared slanted exactly
when *every* tile other than the reference (first) tile has a displacement
from the reference of at least `1e-6` on both axes; one tile degenerate
(< 1e-6) on some axis prevents the slanted verdict.  (The claim as frozen
has this quantifier inverted.) -/
theorem slant_check_quantifier
    (t0 : TileQ) (rest : List TileQ)
    (hlen : 2 < (t0 :: rest).length)
    (hlx : allcloseB (tileLengthsX (t0 :: rest)) ((tileLengthsX (t0 :: rest)).headD 0) = true)
    (hly : allcloseB (tileLengthsY (t0 :: rest)) ((tileLengthsY (t0 :: rest)).headD 0) = true)
    (hox : (pickOffset (offsetsFilt ((t0 :: rest).map (fun t => t.top_l.x)))).isSome = true)
    (hoy : (pickOffset (offsetsFilt ((t0 :: rest).map (fun t => t.top_l.y)))).isSome = true) :
    (check_if_regular_grid (t0 :: rest)).1 = some GridFailure.slanted ↔
      ∀ t ∈ rest, epsGrid ≤ t.top_l.x - t0.top_l.x ∧ epsGrid ≤ t.top_l.y - t0.top_l.y := by
  rcases rest with _ | ⟨t1, rest1⟩
  · simp at hlen
  rcases rest1 with _ | ⟨t2, rest2⟩
  · simp at hlen
  rcases hox2 : pickOffset (offsetsFilt ((t0 :: t1 :: t2 :: rest2).map (fun t => t.top_l.x)))
    with _ | ox
  · rw [hox2] at hox; simp at hox
  rcases hoy2 : pickOffset (offsetsFilt ((t0 :: t1 :: t2 :: rest2).map (fun t => t.top_l.y)))
    with _ | oy
  · rw [hoy2] at hoy; simp at hoy
  have hlx2 := hlx
  have hly2 := hly
  simp only [tileLengthsX, tileLengthsY, List.map_cons, List.headD_cons] at hlx2 hly2
  simp only [List.map_cons] at hox2 hoy2
  have hL : 2 < (t0 :: t1 :: t2 :: rest2).length := by simp
  have key : (check_if_regular_grid (t0 :: t1 :: t2 :: rest2)).1 =
      if slantAll (t0 :: t1 :: t2 :: rest2) = true then some GridFailure.slanted
      else none := by
    unfold check_if_regular_grid
    by_cases hs : slantAll (t0 :: t1 :: t2 :: rest2) = true
    · simp [tileLengthsX, tileLengthsY, List.map_cons, hlx2, hly2, hox2, hoy2, hL, hs]
    · simp [tileLengthsX, tileLengthsY, List.map_cons, hlx2, hly2, hox2, hoy2, hL, hs]
  rw [key]
  by_cases hs : slantAll (t0 :: t1 :: t2 :: rest2) = true
  · have hall := hs
    unfold slantAll at hall
    rw [List.all_eq_true] at hall
    simp only [hs, if_true]
    refine iff_of_true trivial ?_
    intro t ht
    simpa using hall t ht
  · simp only [hs, if_false]
    refine iff_of_false (by simp) ?_
    intro hall
    apply hs
    unfold slantAll
    rw [List.all_eq_true]
    intro t ht
    simpa using hall t ht

unseal Rat.sub Rat.add Rat.mul Rat.inv Nat.gcd List.mergeSort List.merge in
/-- Witness for C4 at the diagonal configuration (both sides of the
equivalence are true there). -/
theorem slant_check_quantifier_witness :
    (check_if_regular_grid diagTiles).1 = some GridFailure.slanted ↔
      ∀ t ∈ diagTiles.tail,
        epsGrid ≤ t.top_l.x - (mkTileXY 0 0 1 1 TileSpaceQ.real).top_l.x ∧
        epsGrid ≤ t.top_l.y - (mkTileXY 0 0 1 1 TileSpaceQ.real).top_l.y :=
  slant_check_quantifier (mkTileXY 0 0 1 1 TileSpaceQ.real)
    [mkTileXY 1 1 1 1 TileSpaceQ.real, mkTileXY 2 2 1 1 TileSpaceQ.real]
    (by decide) (by decide) (by decide) (by decide) (by decide)

/-- Claim C8 counterexample: on the empty tile list the source raises (the
`ValueError` from `min([])` inside `sort_tiles_by_distance`) even though the
number of tiles assigned to cells (0) equals the number of input tiles (0),
so "raises iff assigned ≠ input" fails as stated. -/
theorem grid_snap_count_check_cex :
    resolve_grid_tiles_overlap [] gridSetupZero = Except.error StitchFailure.emptyInput ∧
    (gridAssign [] gridSetupZero).length = ([] : List TileQ).length :=
  ⟨rfl, rfl⟩

/-- Claim C8 (amended to non-empty inputs): `resolve_grid_tiles_overlap`
raises the count-mismatch error iff the number of tiles assigned to grid
cells differs from the number of input tiles; on success it returns exactly
as many tiles as it received; and auto mode propagates the error unchanged
(the error is never caught or retried in the core). -/
theorem grid_snap_count_check
    (fuel : Nat) (tiles : List TileQ) (gs : GridSetupQ) (htiles : tiles ≠ []) :
    (resolve_grid_tiles_overlap tiles gs = Except.error StitchFailure.countMismatch ↔
      (gridAssign (sort_tiles_by_distance tiles) gs).length ≠ tiles.length) ∧
    (∀ out, resolve_grid_tiles_overlap tiles gs = Except.ok out →
      out.length = tiles.length) ∧
    (∀ gs0, check_if_regular_grid tiles = (none, gs0) →
      resolve_auto_mode fuel tiles =
        some ((resolve_grid_tiles_overlap tiles gs0).map (fun ts => (ts, "grid")))) := by
  rcases tiles with _ | ⟨t0, rest⟩
  · exact absurd rfl htiles
  refine ⟨?_, ?_, ?_⟩
  · unfold resolve_grid_tiles_overlap
    by_cases hmis :
        (gridAssign (sort_tiles_by_distance (t0 :: rest)) gs).length ≠ (t0 :: rest).length
    · rw [if_pos hmis]
      exact iff_of_true rfl hmis
    · rw [if_neg hmis]
      exact iff_of_false (by simp) hmis
  · intro out hout
    unfold resolve_grid_tiles_overlap at hout
    by_cases hmis :
        (gridAssign (sort_tiles_by_distance (t0 :: rest)) gs).length ≠ (t0 :: rest).length
    · rw [if_pos hmis] at hout
      exact absurd hout (by simp)
    · rw [if_neg hmis] at hout
      rw [Except.ok.injEq] at hout
      push_neg at hmis
      rw [← hout]
      exact hmis
  · intro gs0 hck
    unfold resolve_auto_mode
    rw [hck]

unseal Rat.sub Rat.add Rat.mul Rat.inv Nat.gcd List.mergeSort List.merge in
/-- Witness for C8 at a single unit tile and a unit grid setup. -/
theorem grid_snap_count_check_witness :
    ([mkTileXY 0 0 1 1 TileSpaceQ.real] ≠ []) ∧
    ((resolve_grid_tiles_overlap [mkTileXY 0 0 1 1 TileSpaceQ.real] ⟨1, 1, 1, 1, 1, 1⟩ =
        Except.error StitchFailure.countMismatch ↔
      (gridAssign (sort_tiles_by_distance [mkTileXY 0 0 1 1 TileSpaceQ.real])
        ⟨1, 1, 1, 1, 1, 1⟩).length ≠ [mkTileXY 0 0 1 1 TileSpaceQ.real].length) ∧
    (∀ out, resolve_grid_tiles_overlap [mkTileXY 0 0 1 1 TileSpaceQ.real]
        ⟨1, 1, 1, 1, 1, 1⟩ = Except.ok out →
      out.length = [mkTileXY 0 0 1 1 TileSpaceQ.real].length) ∧
    (∀ gs0, check_if_regular_grid [mkTileXY 0 0 1 1 TileSpaceQ.real] = (none, gs0) →
      resolve_auto_mode 1 [mkTileXY 0 0 1 1 TileSpaceQ.real] =
        some ((resolve_grid_tiles_overlap [mkTileXY 0 0 1 1 TileSpaceQ.real] gs0).map
          (fun ts => (ts, "grid"))))) :=
  ⟨by decide,
    grid_snap_count_check 1 [mkTileXY 0 0 1 1 TileSpaceQ.real] ⟨1, 1, 1, 1, 1, 1⟩
      (by decide)⟩

unseal Rat.sub Rat.add Rat.mul Rat.inv Nat.gcd List.mergeSort List.merge in
/-- Claim C3 counterexample: a perfectly regular 2×2 lattice of equal unit
tiles with positive per-axis offsets `5e-7` passes detection, but the
detected `num_x` is `1 ≠ 2` and the detected `offset_x` is the default
`1.0`, not within `1e-6` of the true spacing (the sub-`1e-6` diffs are
filtered out by test 2). -/
theorem grid_analyzer_recovers_lattice_cex :
    cexTinyOffsetTiles =
      latticeTiles 2 2 (1 / 2000000) (1 / 2000000) ⟨1, 1, 1, 1, 1⟩ 0 0 0 ⟨1, 1, 1⟩
        TileSpaceQ.real ∧
    (check_if_regular_grid cexTinyOffsetTiles).1 = none ∧
    (check_if_regular_grid cexTinyOffsetTiles).2.num_x = 1 ∧
    ¬ |(check_if_regular_grid cexTinyOffsetTiles).2.offset_x - 1 / 2000000| ≤ epsGrid := by
  decide

unseal Rat.sub Rat.add Rat.mul Rat.inv Nat.gcd List.mergeSort List.merge in
/-- Claim C5 counterexample: free-mode resolution returns a pair whose IoU is
exactly `1e-6`, which is *not* `< eps` (the loop only re-places tiles whose
IoU strictly exceeds `eps`, so the invariant is `≤`, not `<`). -/
theorem free_mode_overlap_free_cex :
    resolve_random_tiles_overlap epsGrid 1 cexBoundaryPair = some cexBoundaryPair ∧
    ¬ iouXY (cexBoundaryPair.getD 0 dummyTile) (cexBoundaryPair.getD 1 dummyTile) < epsGrid := by
  decide

unseal Rat.sub Rat.add Rat.mul Rat.inv Nat.gcd List.mergeSort List.merge in
/-- Claim C6 counterexample: a successful grid-mode resolution of an L-shaped
input yields canonically snapped tiles whose first (cell-order) tile shares
no row or column with the others, so re-running detection declares the grid
slanted and the second grid-mode run raises instead of reproducing the
placements. -/
theorem grid_snap_idempotent_cex :
    resolve_grid_mode cexSnapInput = Except.ok cexSnapped ∧
    resolve_grid_mode cexSnapped =
      Except.error (StitchFailure.notRegularGrid GridFailure.slanted) := by
  decide

unseal Rat.sub Rat.add Rat.mul Rat.inv Nat.gcd List.mergeSort List.merge in
/-- Claim C10 counterexample: a non-empty pixel-space tile list whose first
tile has a zero x-size makes `remove_pixel_gaps` raise (`ZeroDivisionError`
inside `_find_grid_size`) instead of silently returning a (possibly shorter)
list. -/
theorem remove_pixel_gaps_lattice_cex :
    [zeroSizeTile] ≠ ([] : List TileQ) ∧
    zeroSizeTile.space = TileSpaceQ.pixel ∧
    remove_pixel_gaps 1 [zeroSizeTile] = none := by
  decide

theorem isOverlappingRaw_symm (a b : TileQ) :
    isOverlappingRawXY a b = isOverlappingRawXY b a := by
  rw [Bool.eq_iff_iff]
  unfold isOverlappingRawXY
  simp only [Bool.and_eq_true, decide_eq_true_eq]
  tauto

theorem intersection_area_symm (a b : TileQ) :
    intersection_area_XY a b = intersection_area_XY b a := by
  unfold intersection_area_XY
  rw [max_comm a.top_l.x, max_comm a.top_l.y, min_comm (botR a).x, min_comm (botR a).y]

theorem iouXY_symm (a b : TileQ) : iouXY a b = iouXY b a := by
  unfold iouXY
  rw [isOverlappingRaw_symm, intersection_area_symm, add_comm (areaXY a)]

theorem iouXY_le_of_not_overlapping (eps : ℚ) (heps : 0 ≤ eps) (a b : TileQ)
    (h : is_overlappingXY eps a b = false) : iouXY a b ≤ eps := by
  by_cases hr : isOverlappingRawXY a b = true
  · unfold is_overlappingXY at h
    rw [hr, Bool.true_and] at h
    have hle : ¬ iouXY a b > eps := of_decide_eq_false h
    linarith
  · have hr2 : isOverlappingRawXY a b = false := Bool.eq_false_iff.mpr hr
    unfold iouXY
    rw [hr2]
    simpa using heps

theorem innerFind_none_no_overlap (eps : ℚ) (ts : List TileQ) (i : ℕ) :
    ∀ js, innerFind eps ts i js = none →
      ∀ k, k ∈ js →
        is_overlappingXY eps (ts.getD i dummyTile) (ts.getD k dummyTile) = false := by
  intro js
  induction js with
  | nil => intro _ k hk; simp at hk
  | cons j rest ih =>
    intro h k hk
    unfold innerFind at h
    by_cases hov :
        is_overlappingXY eps (ts.getD i dummyTile) (ts.getD j dummyTile) = true
    · rw [if_pos hov] at h
      exact absurd h (by simp)
    · rw [if_neg hov] at h
      rcases List.mem_cons.mp hk with rfl | hk
      · exact Bool.eq_false_iff.mpr hov
      · exact ih h k hk

theorem passScan_count_le (eps : ℚ) :
    ∀ (is : List ℕ) (ts : List TileQ) (n : ℕ), n ≤ (passScan eps ts is n).2 := by
  intro is
  induction is with
  | nil => intro ts n; simp [passScan]
  | cons i rest ih =>
    intro ts n
    rcases hf : innerFind eps ts i (List.range' (i + 1) (ts.length - (i + 1))) with _ | ⟨j0, moved⟩
    · simp only [passScan, hf]
      exact ih ts n
    · simp only [passScan, hf]
      calc n ≤ n + 1 := Nat.le_succ n
        _ ≤ (passScan eps (ts.set j0 moved) rest (n + 1)).2 := ih _ _

theorem passScan_zero (eps : ℚ) :
    ∀ (is : List ℕ) (ts : List TileQ) (n : ℕ),
      (passScan eps ts is n).2 = n →
      (passScan eps ts is n).1 = ts ∧
        ∀ i ∈ is, innerFind eps ts i (List.range' (i + 1) (ts.length - (i + 1))) = none := by
  intro is
  induction is with
  | nil => intro ts n _; simp [passScan]
  | cons i rest ih =>
    intro ts n h
    rcases hf : innerFind eps ts i (List.range' (i + 1) (ts.length - (i + 1))) with _ | ⟨j0, moved⟩
    · simp only [passScan, hf] at h ⊢
      obtain ⟨h1, h2⟩ := ih ts n h
      refine ⟨h1, ?_⟩
      intro i2 hi2
      rcases List.mem_cons.mp hi2 with rfl | hi2
      · exact hf
      · exact h2 i2 hi2
    · simp only [passScan, hf] at h
      have hmono := passScan_count_le eps rest (ts.set j0 moved) (n + 1)
      omega

theorem whileResolve_no_overlap (eps : ℚ) :
    ∀ (fuel : ℕ) (tiles out : List TileQ), whileResolve eps fuel tiles = some out →
      ∀ i j, i < j → j < out.length →
        is_overlappingXY eps (out.getD i dummyTile) (out.getD j dummyTile) = false := by
  intro fuel
  induction fuel with
  | zero => intro tiles out h; simp [whileResolve] at h
  | succ fuel ih =>
    intro tiles out h i j hij hj
    unfold whileResolve at h
    by_cases hz :
        (passScan eps (sort_tiles_by_distance tiles)
          (List.range (sort_tiles_by_distance tiles).length) 0).2 = 0
    · rw [if_pos hz, Option.some_inj] at h
      obtain ⟨h1, h2⟩ := passScan_zero eps _ _ _ hz
      rw [← h, h1] at hj ⊢
      have hi : i ∈ List.range (sort_tiles_by_distance tiles).length :=
        List.mem_range.mpr (by omega)
      refine innerFind_none_no_overlap eps _ i _ (h2 i hi) j ?_
      rw [List.mem_range']
      exact ⟨j - (i + 1), by omega, by omega⟩
    · rw [if_neg hz] at h
      exact ih _ _ h i j hij hj

/-- Claim C5 (amended): whenever `resolve_random_tiles_overlap` returns a
tile list, no ordered pair of distinct tiles in it is overlapping under
`is_overlappingXY`, equivalently every such pair has IoU ≤ eps.  (The
claim's strict bound `IoU < eps` fails at the boundary: a pair at IoU
exactly `eps` is already non-overlapping for the loop and is returned
untouched.) -/
theorem free_mode_overlap_free
    (eps : ℚ) (heps : 0 ≤ eps) (fuel : ℕ) (tiles out : List TileQ)
    (hres : resolve_random_tiles_overlap eps fuel tiles = some out) :
    ∀ i j, i < out.length → j < out.length → i ≠ j →
      is_overlappingXY eps (out.getD i dummyTile) (out.getD j dummyTile) = false ∧
      iouXY (out.getD i dummyTile) (out.getD j dummyTile) ≤ eps := by
  have key : ∀ i j, i < j → j < out.length →
      is_overlappingXY eps (out.getD i dummyTile) (out.getD j dummyTile) = false := by
    unfold resolve_random_tiles_overlap at hres
    rcases tiles with _ | ⟨t0, rest⟩
    · exact absurd hres (by simp)
    · exact whileResolve_no_overlap eps fuel _ out hres
  have symm : ∀ a b : TileQ, is_overlappingXY eps a b = is_overlappingXY eps b a := by
    intro a b
    unfold is_overlappingXY
    rw [isOverlappingRaw_symm, iouXY_symm]
  intro i j hi hj hij
  rcases Nat.lt_or_ge i j with hlt | hge
  · have h := key i j hlt hj
    exact ⟨h, iouXY_le_of_not_overlapping eps heps _ _ h⟩
  · have hlt : j < i := by omega
    have h := key j i hlt hi
    rw [symm] at h
    refine ⟨h, iouXY_le_of_not_overlapping eps heps _ _ h⟩

unseal Rat.sub Rat.add Rat.mul Rat.inv Nat.gcd List.mergeSort List.merge in
/-- Witness for C5: a far-apart pair is returned unchanged and is
overlap-free. -/
theorem free_mode_overlap_free_witness :
    resolve_random_tiles_overlap epsGrid 1 farPair = some farPair ∧
    (is_overlappingXY epsGrid (farPair.getD 0 dummyTile) (farPair.getD 1 dummyTile) = false ∧
      iouXY (farPair.getD 0 dummyTile) (farPair.getD 1 dummyTile) ≤ epsGrid) :=
  ⟨by decide,
    free_mode_overlap_free epsGrid (by decide) 1 farPair farPair (by decide)
      0 1 (by decide) (by decide) (by decide)⟩

theorem countP_range_le_min (p : ℕ → Bool) (m : ℕ) (hp : ∀ k, p k = true → k < m) :
    ∀ n, (List.range n).countP p ≤ min n m := by
  intro n
  induction n with
  | zero => simp
  | succ n ih =>
    rw [List.range_succ, List.countP_append]
    have hlen : (List.range n).countP p ≤ n := by
      calc (List.range n).countP p ≤ (List.range n).length := List.countP_le_length _
        _ = n := List.length_range n
    by_cases hn : p n = true
    · have hnm : n < m := hp n hn
      rw [Nat.min_eq_left (by omega : n + 1 ≤ m)]
      simp only [List.countP_cons, List.countP_nil, hn, if_true]
      omega
    · simp only [List.countP_cons, List.countP_nil, hn]
      simp only [Bool.false_eq_true, if_false]
      have h2 : min n m ≤ min (n + 1) m := by omega
      omega

theorem le_countP_range (p : ℕ → Bool) (c : ℕ) (hp : ∀ k, k ≤ c → p k = true) :
    ∀ n, c < n → c + 1 ≤ (List.range n).countP p := by
  intro n
  induction n with
  | zero => omega
  | succ n ih =>
    intro hc
    rcases Nat.lt_or_ge c n with hlt | hge
    · rw [List.range_succ, List.countP_append]
      have := ih hlt
      omega
    · have hcn : c = n := by omega
      subst hcn
      have : (List.range (c + 1)).countP p = (List.range (c + 1)).length :=
        List.countP_eq_length.mpr (fun a ha => hp a (by
          have := List.mem_range.mp ha
          omega))
      rw [this, List.length_range]

theorem div_lt_numChunks (dim cs x : ℕ) (hcs : 0 < cs) (hx : x < dim) :
    x / cs < numChunks dim cs := by
  unfold numChunks
  have h1 : x / cs * cs ≤ x := Nat.div_mul_le_self x cs
  have h2 : x / cs + 1 ≤ (dim + cs - 1) / cs := by
    rw [Nat.le_div_iff_mul_le hcs, add_mul, one_mul]
    omega
  omega
theorem axisRanges_starts (dim cs : ℕ) :
    (axisRanges dim cs).map Prod.fst = (List.range (numChunks dim cs)).map (· * cs) := by
  unfold axisRanges
  rw [List.map_map]
  rfl

theorem inAxisSpan_of_mem (dim cs lo hi x : ℕ) (hcs : 0 < cs) (hx : x < dim)
    (hlo : lo ≤ x) (hhi : x < hi) :
    inAxisSpan ((axisRanges dim cs).map Prod.fst) (axisRanges dim cs).length lo hi
      (x / cs) = true := by
  have hlen : (axisRanges dim cs).length = numChunks dim cs := by
    unfold axisRanges
    rw [List.length_map, List.length_range]
  unfold inAxisSpan bisectRight bisectLeft
  rw [axisRanges_starts, hlen]
  rw [List.countP_map, List.countP_map]
  rw [Bool.and_eq_true, decide_eq_true_eq, decide_eq_true_eq]
  set F := (List.range (numChunks dim cs)).countP ((fun s => decide (s ≤ lo)) ∘ (· * cs)) with hF
  set L := (List.range (numChunks dim cs)).countP ((fun s => decide (s < hi)) ∘ (· * cs)) with hL
  have hfirst : F ≤ lo / cs + 1 := by
    rw [hF]
    have := countP_range_le_min ((fun s => decide (s ≤ lo)) ∘ (· * cs)) (lo / cs + 1)
      (fun k hk => by
        simp only [Function.comp_apply, decide_eq_true_eq] at hk
        have : k ≤ lo / cs := (Nat.le_div_iff_mul_le hcs).mpr hk
        omega)
      (numChunks dim cs)
    omega
  have hlast : x / cs + 1 ≤ L := by
    rw [hL]
    apply le_countP_range _ (x / cs)
    · intro k hk
      simp only [Function.comp_apply, decide_eq_true_eq]
      calc k * cs ≤ x / cs * cs := Nat.mul_le_mul_right cs hk
        _ ≤ x := Nat.div_mul_le_self x cs
        _ < hi := hhi
    · exact div_lt_numChunks dim cs x hcs hx
  have hdiv : lo / cs ≤ x / cs := Nat.div_le_div_right hlo
  have hn : x / cs < numChunks dim cs := div_lt_numChunks dim cs x hcs hx
  clear_value F L
  generalize hq : lo / cs = q at hfirst hdiv
  generalize hr : x / cs = r at hlast hdiv hn ⊢
  omega

@[simp] theorem buildChunkRanges_cons (dim cs : ℕ) (shape chunks : List ℕ) :
    buildChunkRanges (dim :: shape) (cs :: chunks) =
      axisRanges dim cs :: buildChunkRanges shape chunks := rfl

@[simp] theorem chunkIdxOf_cons (cs : ℕ) (chunks : List ℕ) (x : ℕ) (p : List ℕ) :
    chunkIdxOf (cs :: chunks) (x :: p) = x / cs :: chunkIdxOf chunks p := rfl

@[simp] theorem chunkBoundsOf_cons (dim cs c : ℕ) (shape chunks ci : List ℕ) :
    chunkBoundsOf (dim :: shape) (cs :: chunks) (c :: ci) =
      (c * cs, min (c * cs + cs) dim) :: chunkBoundsOf shape chunks ci := rfl

@[simp] theorem containsPt_cons (b : ℕ × ℕ) (lb : List (ℕ × ℕ)) (x : ℕ) (p : List ℕ) :
    containsPt (b :: lb) (x :: p) =
      (decide (b.1 ≤ x) && decide (x < b.2) && containsPt lb p) := by
  simp [containsPt, Bool.and_assoc]

@[simp] theorem inShape_cons (x dim : ℕ) (p shape : List ℕ) :
    inShape (x :: p) (dim :: shape) = (decide (x < dim) && inShape p shape) := rfl

@[simp] theorem spanContains_cons (ar : List (ℕ × ℕ)) (cr : List (List (ℕ × ℕ)))
    (b : ℕ × ℕ) (lb : List (ℕ × ℕ)) (c : ℕ) (ci : List ℕ) :
    spanContains (ar :: cr) (b :: lb) (c :: ci) =
      (inAxisSpan (ar.map Prod.fst) ar.length b.1 b.2 c && spanContains cr lb ci) := rfl

@[simp] theorem fullyCovers_cons (b cb0 : ℕ × ℕ) (lb cb : List (ℕ × ℕ)) :
    fullyCovers (b :: lb) (cb0 :: cb) =
      (decide (b.1 ≤ cb0.1) && decide (cb0.2 ≤ b.2) && fullyCovers lb cb) := by
  simp [fullyCovers, Bool.and_assoc]

@[simp] theorem normalizeBounds_cons (b : ℕ × ℕ) (bs : List (ℕ × ℕ)) (dim : ℕ)
    (shape : List ℕ) :
    normalizeBounds (b :: bs) (dim :: shape) =
      (min b.1 dim, min b.2 dim) :: normalizeBounds bs shape := rfl

@[simp] theorem localIdx_cons (b : ℕ × ℕ) (lb : List (ℕ × ℕ)) (x : ℕ) (p : List ℕ) :
    localIdx (b :: lb) (x :: p) = (x - b.1) :: localIdx lb p := rfl

theorem spanContains_of_containsPt :
    ∀ (shape chunks : List ℕ) (lb : List (ℕ × ℕ)) (p : List ℕ),
      chunks.length = shape.length → lb.length = shape.length →
      p.length = shape.length → (∀ c ∈ chunks, 0 < c) →
      inShape p shape = true → containsPt lb p = true →
      spanContains (buildChunkRanges shape chunks) lb (chunkIdxOf chunks p) = true := by
  intro shape
  induction shape with
  | nil =>
    intro chunks lb p hc hl hp _ _ _
    rcases List.length_eq_zero.mp hc with rfl
    rcases List.length_eq_zero.mp hl with rfl
    rcases List.length_eq_zero.mp hp with rfl
    rfl
  | cons dim shape ih =>
    intro chunks lb p hc hl hp hpos hin hcont
    rcases chunks with _ | ⟨cs, chunks⟩
    · simp at hc
    rcases lb with _ | ⟨b, lb⟩
    · simp at hl
    rcases p with _ | ⟨x, p⟩
    · simp at hp
    rw [inShape_cons, Bool.and_eq_true, decide_eq_true_eq] at hin
    rw [containsPt_cons, Bool.and_eq_true, Bool.and_eq_true,
      decide_eq_true_eq, decide_eq_true_eq] at hcont
    rw [buildChunkRanges_cons, chunkIdxOf_cons, spanContains_cons, Bool.and_eq_true]
    constructor
    · exact inAxisSpan_of_mem dim cs b.1 b.2 x (hpos cs (by simp)) hin.1
        hcont.1.1 hcont.1.2
    · exact ih chunks lb p (by simpa using hc) (by simpa using hl) (by simpa using hp)
        (fun c hcmem => hpos c (by simp [hcmem])) hin.2 hcont.2

theorem containsPt_chunkBounds :
    ∀ (shape chunks p : List ℕ),
      chunks.length = shape.length → p.length = shape.length →
      (∀ c ∈ chunks, 0 < c) → inShape p shape = true →
      containsPt (chunkBoundsOf shape chunks (chunkIdxOf chunks p)) p = true := by
  intro shape
  induction shape with
  | nil =>
    intro chunks p hc hp _ _
    rcases List.length_eq_zero.mp hc with rfl
    rcases List.length_eq_zero.mp hp with rfl
    rfl
  | cons dim shape ih =>
    intro chunks p hc hp hpos hin
    rcases chunks with _ | ⟨cs, chunks⟩
    · simp at hc
    rcases p with _ | ⟨x, p⟩
    · simp at hp
    rw [inShape_cons, Bool.and_eq_true, decide_eq_true_eq] at hin
    rw [chunkIdxOf_cons, chunkBoundsOf_cons, containsPt_cons, Bool.and_eq_true,
      Bool.and_eq_true, decide_eq_true_eq, decide_eq_true_eq]
    have hcs : 0 < cs := hpos cs (by simp)
    refine ⟨⟨Nat.div_mul_le_self x cs, ?_⟩, ?_⟩
    · have hmod : x % cs < cs := Nat.mod_lt x hcs
      have heq : x / cs * cs + x % cs = x := Nat.div_add_mod' x cs
      have hxdim : x < dim := hin.1
      omega
    · exact ih chunks p (by simpa using hc) (by simpa using hp)
        (fun c hcmem => hpos c (by simp [hcmem])) hin.2

theorem containsPt_of_fullyCovers :
    ∀ (lb cb : List (ℕ × ℕ)) (p : List ℕ),
      cb.length = lb.length → p.length = lb.length →
      fullyCovers lb cb = true → containsPt cb p = true → containsPt lb p = true := by
  intro lb
  induction lb with
  | nil =>
    intro cb p hc hp _ _
    rcases List.length_eq_zero.mp hc with rfl
    rcases List.length_eq_zero.mp hp with rfl
    rfl
  | cons b lb ih =>
    intro cb p hc hp hfc hcont
    rcases cb with _ | ⟨cb0, cb⟩
    · simp at hc
    rcases p with _ | ⟨x, p⟩
    · simp at hp
    rw [fullyCovers_cons, Bool.and_eq_true, Bool.and_eq_true,
      decide_eq_true_eq, decide_eq_true_eq] at hfc
    rw [containsPt_cons, Bool.and_eq_true, Bool.and_eq_true,
      decide_eq_true_eq, decide_eq_true_eq] at hcont
    rw [containsPt_cons, Bool.and_eq_true, Bool.and_eq_true,
      decide_eq_true_eq, decide_eq_true_eq]
    exact ⟨⟨by omega, by omega⟩,
      ih cb p (by simpa using hc) (by simpa using hp) hfc.2 hcont.2⟩

theorem compositeAt_nil {α : Type} (fill : α) (p : List ℕ) :
    compositeAt fill [] p = fill := rfl

theorem compositeAt_cons {α : Type} (fill : α) (r : RegionM α) (L : List (RegionM α))
    (p : List ℕ) :
    compositeAt fill (r :: L) p =
      compositeAt (if containsPt r.bounds p then r.load (localIdx r.bounds p) else fill)
        L p := rfl

theorem compositeAt_filter {α : Type} (p : List ℕ) :
    ∀ (L : List (RegionM α)) (fill : α),
      compositeAt fill L p =
        compositeAt fill (L.filter (fun r => containsPt r.bounds p)) p := by
  intro L
  induction L with
  | nil => intro fill; rfl
  | cons r L ih =>
    intro fill
    rw [compositeAt_cons, List.filter_cons]
    by_cases hc : containsPt r.bounds p = true
    · rw [if_pos hc, if_pos hc, compositeAt_cons, if_pos hc]
      exact ih _
    · rw [if_neg (by simpa using hc), if_neg (by simpa using hc)]
      exact ih fill

theorem compositeAt_of_all_contains {α : Type} (p : List ℕ) :
    ∀ (L : List (RegionM α)) (fill : α),
      (∀ r ∈ L, containsPt r.bounds p = true) →
      compositeAt fill L p =
        (match L.getLast? with
          | some r => r.load (localIdx r.bounds p)
          | none => fill) := by
  intro L
  induction L using List.reverseRecOn with
  | nil => intro fill _; rfl
  | append_singleton L r ih =>
    intro fill hall
    unfold compositeAt
    rw [List.foldl_append]
    have hc : containsPt r.bounds p = true := hall r (by simp)
    simp only [List.foldl_cons, List.foldl_nil, hc, if_true, List.getLast?_concat]

theorem compositeAt_eq_lastWriterAt {α : Type} (fill : α) (p : List ℕ)
    (L : List (RegionM α)) :
    compositeAt fill L p = lastWriterAt fill L p := by
  rw [compositeAt_filter p L fill]
  unfold lastWriterAt
  exact compositeAt_of_all_contains p _ fill (fun r hr => (List.mem_filter.mp hr).2)

theorem filter_getD_range {γ : Type} (d : γ) (q : γ → Bool) :
    ∀ l : List γ,
      ((List.range l.length).filter (fun i => q (l.getD i d))).map (fun i => l.getD i d) =
        l.filter q := by
  intro l
  induction l with
  | nil => simp
  | cons a t ih =>
    rw [List.length_cons, List.range_succ_eq_map, List.filter_cons]
    have hc : ((fun i => q ((a :: t).getD i d)) ∘ Nat.succ) = fun i => q (t.getD i d) := rfl
    by_cases hqa : q a = true
    · rw [if_pos (by simpa using hqa)]
      rw [List.map_cons, List.filter_map, hc, List.map_map]
      have hm : ((fun i => (a :: t).getD i d) ∘ Nat.succ) = fun i => t.getD i d := rfl
      rw [hm, List.getD_cons_zero, List.filter_cons, if_pos (by simpa using hqa), ih]
    · rw [if_neg (by simpa using hqa)]
      rw [List.filter_map, hc, List.map_map]
      have hm : ((fun i => (a :: t).getD i d) ∘ Nat.succ) = fun i => t.getD i d := rfl
      rw [hm, List.filter_cons, if_neg (by simpa using hqa), ih]

theorem getD_map_bounds {α : Type} (normed : List (RegionM α)) (fillr : RegionM α)
    (li : ℕ) (hli : li < normed.length) :
    (normed.map RegionM.bounds).getD li [] = (normed.getD li fillr).bounds := by
  rw [List.getD_eq_getElem?_getD, List.getD_eq_getElem?_getD, List.getElem?_map]
  rw [List.getElem?_eq_getElem hli]
  rfl

theorem normalizeBounds_length (bs : List (ℕ × ℕ)) (shape : List ℕ) :
    (normalizeBounds bs shape).length = min bs.length shape.length := by
  simp [normalizeBounds]

theorem chunkIdxOf_length (chunks p : List ℕ) :
    (chunkIdxOf chunks p).length = min p.length chunks.length := by
  simp [chunkIdxOf]

theorem chunkBoundsOf_length (shape chunks ci : List ℕ) :
    (chunkBoundsOf shape chunks ci).length =
      min ci.length (min chunks.length shape.length) := by
  simp [chunkBoundsOf]

theorem normed_getD_bounds_length {α : Type} (regions : List (RegionM α))
    (shape : List ℕ) (fill : α) (li : ℕ) (hli : li < regions.length)
    (hreg : ∀ r ∈ regions, r.bounds.length = shape.length) :
    (((regions.map (fun r => RegionM.mk (normalizeBounds r.bounds shape) r.load)).getD
      li (junkRegion fill)).bounds).length = shape.length := by
  rw [List.getD_eq_getElem?_getD, List.getElem?_map, List.getElem?_eq_getElem hli]
  simp only [Option.map_some', Option.getD_some]
  rw [normalizeBounds_length, hreg (regions[li]) (List.getElem_mem hli)]
  omega

theorem chunkLoaders_filter {α : Type} (regions : List (RegionM α))
    (shape chunks : List ℕ) (fill : α) (p : List ℕ)
    (hchunks : chunks.length = shape.length) (hp : p.length = shape.length)
    (hreg : ∀ r ∈ regions, r.bounds.length = shape.length)
    (hcs : ∀ c ∈ chunks, 0 < c) (hin : inShape p shape = true) :
    ((chunkLoaders (buildChunkRanges shape chunks)
        ((regions.map (fun r => RegionM.mk (normalizeBounds r.bounds shape) r.load)).map
          RegionM.bounds) (chunkIdxOf chunks p)).map
      (fun li => (regions.map
        (fun r => RegionM.mk (normalizeBounds r.bounds shape) r.load)).getD li
          (junkRegion fill))).filter (fun r => containsPt r.bounds p) =
    (regions.map (fun r => RegionM.mk (normalizeBounds r.bounds shape) r.load)).filter
      (fun r => containsPt r.bounds p) := by
  set normed := regions.map (fun r => RegionM.mk (normalizeBounds r.bounds shape) r.load)
    with hnd
  have hlen : (normed.map RegionM.bounds).length = normed.length := List.length_map _ _
  have hlenn : normed.length = regions.length := List.length_map _ _
  unfold chunkLoaders
  rw [hlen]
  rw [List.filter_map]
  rw [List.filter_filter]
  have hcongr : ∀ li ∈ List.range normed.length,
      (((fun r => containsPt r.bounds p) ∘
          (fun li => normed.getD li (junkRegion fill))) li &&
        spanContains (buildChunkRanges shape chunks)
          ((normed.map RegionM.bounds).getD li []) (chunkIdxOf chunks p)) =
      ((fun r => containsPt r.bounds p) ∘ (fun li => normed.getD li (junkRegion fill))) li := by
    intro li hli
    have hliL : li < normed.length := List.mem_range.mp hli
    by_cases hc : containsPt (normed.getD li (junkRegion fill)).bounds p = true
    · have hspan : spanContains (buildChunkRanges shape chunks)
          ((normed.map RegionM.bounds).getD li []) (chunkIdxOf chunks p) = true := by
        rw [getD_map_bounds normed (junkRegion fill) li hliL]
        apply spanContains_of_containsPt shape chunks _ p hchunks
          (normed_getD_bounds_length regions shape fill li (by omega)
            hreg) hp hcs hin hc
      simp only [Function.comp_apply, hc, hspan, Bool.and_true]
    · simp only [Function.comp_apply]
      rw [Bool.eq_false_iff.mpr hc]
      rfl
  rw [List.filter_congr hcongr]
  exact filter_getD_range (junkRegion fill) (fun r => containsPt r.bounds p) normed

/-- Claim C1: for every region list, target shape, chunk shape and fill value
(with matching axis counts and positive chunk sizes), the value of the
materialised array built by `lazy_array_from_regions` at every in-bounds
point equals the value of the last region (in input-list order) whose
clamped bounds contain the point, and the fill value at points contained in
no region.  Since every plan branch — the shared-fill node, the
single-loader full-coverage zero-copy view, and the general
`_composite_chunk` path — is proved equal to the same last-writer function,
the zero-copy view path in particular produces the same values as the
general composite path. -/
theorem lazy_array_last_writer_wins {α : Type} (regions : List (RegionM α))
    (shape chunks : List ℕ) (fill : α) (p : List ℕ)
    (hchunks : chunks.length = shape.length) (hp : p.length = shape.length)
    (hreg : ∀ r ∈ regions, r.bounds.length = shape.length)
    (hcs : ∀ c ∈ chunks, 0 < c) (hin : inShape p shape = true) :
    lazyValueAt regions shape chunks fill p =
      lastWriterAt fill
        (regions.map (fun r => RegionM.mk (normalizeBounds r.bounds shape) r.load)) p := by
  have hmain := chunkLoaders_filter regions shape chunks fill p hchunks hp hreg hcs hin
  simp only [lazyValueAt]
  set normed := regions.map (fun r => RegionM.mk (normalizeBounds r.bounds shape) r.load)
    with hnd
  have hchain : ∀ L : List ℕ,
      ((L.map (fun li => normed.getD li (junkRegion fill))).filter
          (fun r => containsPt r.bounds p) =
        normed.filter (fun r => containsPt r.bounds p)) →
      compositeAt fill (L.map (fun li => normed.getD li (junkRegion fill))) p =
        lastWriterAt fill normed p := by
    intro L hL
    rw [compositeAt_filter p (L.map (fun li => normed.getD li (junkRegion fill))) fill,
      hL, ← compositeAt_filter p normed fill]
    exact compositeAt_eq_lastWriterAt fill p normed
  rcases hl : chunkLoaders (buildChunkRanges shape chunks) (List.map RegionM.bounds normed)
      (chunkIdxOf chunks p) with _ | ⟨li, _ | ⟨li2, rest2⟩⟩
  · rw [hl] at hmain
    have := hchain [] hmain
    simpa using this
  · rw [hl] at hmain
    have hone := hchain [li] hmain
    simp only [List.map_cons, List.map_nil] at hone
    dsimp only
    by_cases hfc : fullyCovers (normed.getD li (junkRegion fill)).bounds
        (chunkBoundsOf shape chunks (chunkIdxOf chunks p)) = true
    · rw [if_pos hfc, ← hone]
      have hliL : li < regions.length := by
        have hmem : li ∈ chunkLoaders (buildChunkRanges shape chunks)
            (List.map RegionM.bounds normed) (chunkIdxOf chunks p) := by
          rw [hl]; simp
        unfold chunkLoaders at hmem
        have := List.mem_range.mp (List.mem_filter.mp hmem).1
        rw [List.length_map, hnd, List.length_map] at this
        exact this
      have hcont : containsPt (normed.getD li (junkRegion fill)).bounds p = true := by
        apply containsPt_of_fullyCovers _ _ p _ _ hfc
        · exact containsPt_chunkBounds shape chunks p hchunks hp hcs hin
        · rw [chunkBoundsOf_length, chunkIdxOf_length,
            normed_getD_bounds_length regions shape fill li hliL hreg]
          omega
        · rw [hp, normed_getD_bounds_length regions shape fill li hliL hreg]
      rw [compositeAt_cons, compositeAt_nil, if_pos hcont]
    · rw [if_neg hfc]
      exact hone
  · rw [hl] at hmain
    exact hchain (li :: li2 :: rest2) hmain

/-- Witness for C1: two overlapping regions on a 4×4 canvas with 2×2 chunks;
at the doubly-covered point (2,2) both the plan value and the last-writer
value are the second region's value. -/
theorem lazy_array_last_writer_wins_witness :
    (lazyValueAt twoRegions [4, 4] [2, 2] 0 [2, 2] =
      lastWriterAt 0 (twoRegions.map
        (fun r => RegionM.mk (normalizeBounds r.bounds [4, 4]) r.load)) [2, 2]) ∧
    lazyValueAt twoRegions [4, 4] [2, 2] 0 [2, 2] = 2 := by
  refine ⟨lazy_array_last_writer_wins twoRegions [4, 4] [2, 2] 0 [2, 2] rfl rfl ?_
    (by decide) (by decide), by rfl⟩
  intro r hr
  simp only [twoRegions, List.mem_cons, List.not_mem_nil, or_false] at hr
  rcases hr with rfl | rfl <;> rfl

theorem getD_map_of_lt {β γ : Type} (f : β → γ) (l : List β) (d : γ) (d2 : β) (li : ℕ)
    (hli : li < l.length) : (l.map f).getD li d = f (l.getD li d2) := by
  rw [List.getD_eq_getElem?_getD, List.getElem?_map, List.getElem?_eq_getElem hli,
    List.getD_eq_getElem?_getD, List.getElem?_eq_getElem hli]
  rfl

theorem taskRefs_outputTask (shape chunks : List ℕ) (allBounds : List (List (ℕ × ℕ)))
    (ci : List ℕ) :
    taskRefs (outputTask shape chunks allBounds ci) =
      chunkLoaders (buildChunkRanges shape chunks) allBounds ci := by
  simp only [outputTask]
  rcases hl : chunkLoaders (buildChunkRanges shape chunks) allBounds ci
    with _ | ⟨li, _ | ⟨li2, r⟩⟩
  · rfl
  · dsimp only
    by_cases hfc : fullyCovers (allBounds.getD li []) (chunkBoundsOf shape chunks ci) = true
    · rw [if_pos hfc]
      rfl
    · rw [if_neg hfc]
      rfl
  · dsimp only
    simp only [taskRefs]
    rw [List.map_map]
    rw [show (Prod.fst ∘ fun li => (li, allBounds.getD li [])) = fun li : ℕ => li from rfl]
    exact List.map_id _

theorem chunkLoaders_nodup (cr : List (List (ℕ × ℕ))) (allBounds : List (List (ℕ × ℕ)))
    (ci : List ℕ) : (chunkLoaders cr allBounds ci).Nodup :=
  (List.nodup_range _).filter _

theorem mem_natProduct :
    ∀ (ns ci : List ℕ), ci.length = ns.length →
      (∀ pr ∈ ci.zip ns, pr.1 < pr.2) → ci ∈ natProduct ns := by
  intro ns
  induction ns with
  | nil =>
    intro ci hl _
    rcases List.length_eq_zero.mp hl with rfl
    simp [natProduct]
  | cons n ns ih =>
    intro ci hl hall
    rcases ci with _ | ⟨c, ci⟩
    · simp at hl
    simp only [natProduct, List.mem_flatMap]
    refine ⟨c, List.mem_range.mpr (hall (c, n) (by simp)), ?_⟩
    exact List.mem_map.mpr
      ⟨ci, ih ci (by simpa using hl) (fun pr hpr => hall pr (by simp [hpr])), rfl⟩

theorem chunkIdx_lt_numChunks :
    ∀ (shape chunks p : List ℕ), chunks.length = shape.length → p.length = shape.length →
      (∀ c ∈ chunks, 0 < c) → inShape p shape = true →
      ∀ pr ∈ (chunkIdxOf chunks p).zip
        ((shape.zip chunks).map (fun q => numChunks q.1 q.2)), pr.1 < pr.2 := by
  intro shape
  induction shape with
  | nil =>
    intro chunks p hc hp _ _
    rcases List.length_eq_zero.mp hc with rfl
    rcases List.length_eq_zero.mp hp with rfl
    simp
  | cons dim shape ih =>
    intro chunks p hc hp hpos hin
    rcases chunks with _ | ⟨cs, chunks⟩
    · simp at hc
    rcases p with _ | ⟨x, p⟩
    · simp at hp
    rw [inShape_cons, Bool.and_eq_true, decide_eq_true_eq] at hin
    intro pr hpr
    rw [chunkIdxOf_cons] at hpr
    simp only [List.zip_cons_cons, List.map_cons, List.mem_cons] at hpr
    rcases hpr with rfl | hpr
    · exact div_lt_numChunks dim cs x (hpos cs (by simp)) hin.1
    · exact ih chunks p (by simpa using hc) (by simpa using hp)
        (fun c hcm => hpos c (by simp [hcm])) hin.2 pr hpr

theorem chunkIdxOf_mem_allChunkIdxs (shape chunks p : List ℕ)
    (hchunks : chunks.length = shape.length) (hp : p.length = shape.length)
    (hcs : ∀ c ∈ chunks, 0 < c) (hin : inShape p shape = true) :
    chunkIdxOf chunks p ∈ allChunkIdxs shape chunks := by
  unfold allChunkIdxs
  exact mem_natProduct _ _
    (by rw [chunkIdxOf_length, List.length_map, List.length_zip, hchunks, hp])
    (chunkIdx_lt_numChunks shape chunks p hchunks hp hcs hin)

theorem normalized_bounds_snd_le :
    ∀ (bs : List (ℕ × ℕ)) (shape : List ℕ),
      ∀ pr ∈ (normalizeBounds bs shape).zip shape, pr.1.2 ≤ pr.2 := by
  intro bs
  induction bs with
  | nil => intro shape pr hpr; simp [normalizeBounds] at hpr
  | cons b bs ih =>
    intro shape pr hpr
    rcases shape with _ | ⟨dim, shape⟩
    · simp [normalizeBounds] at hpr
    rw [normalizeBounds_cons] at hpr
    simp only [List.zip_cons_cons, List.mem_cons] at hpr
    rcases hpr with rfl | hpr
    · exact min_le_right _ _
    · exact ih shape pr hpr

theorem inShape_fst_of_nonempty :
    ∀ (lb : List (ℕ × ℕ)) (shape : List ℕ), lb.length = shape.length →
      (∀ pr ∈ lb.zip shape, pr.1.2 ≤ pr.2) → (∀ b ∈ lb, b.1 < b.2) →
      inShape (lb.map Prod.fst) shape = true := by
  intro lb
  induction lb with
  | nil =>
    intro shape hl _ _
    rcases List.length_eq_zero.mp hl.symm with rfl
    rfl
  | cons b lb ih =>
    intro shape hl hsnd hne
    rcases shape with _ | ⟨dim, shape⟩
    · simp at hl
    rw [List.map_cons, inShape_cons, Bool.and_eq_true, decide_eq_true_eq]
    constructor
    · have h1 : b.1 < b.2 := hne b (by simp)
      have h2 : b.2 ≤ dim := hsnd (b, dim) (by simp)
      omega
    · exact ih shape (by simpa using hl) (fun pr hpr => hsnd pr (by simp [hpr]))
        (fun b2 hb2 => hne b2 (by simp [hb2]))

theorem containsPt_fst :
    ∀ lb : List (ℕ × ℕ), (∀ b ∈ lb, b.1 < b.2) →
      containsPt lb (lb.map Prod.fst) = true := by
  intro lb
  induction lb with
  | nil => intro _; rfl
  | cons b lb ih =>
    intro hne
    rw [List.map_cons, containsPt_cons, Bool.and_eq_true, Bool.and_eq_true,
      decide_eq_true_eq, decide_eq_true_eq]
    exact ⟨⟨Nat.le_refl _, hne b (by simp)⟩,
      ih (fun b2 hb2 => hne b2 (by simp [hb2]))⟩

/-- Claim C2 counterexample: a single region whose slices are empty at
position zero is registered against no chunk, so no output task references
its loader node and materialising the whole array invokes its loader zero
times, not once. -/
theorem one_loader_node_per_region_cex :
    cexEmptyRegion.length = 1 ∧
    invocationCount [4, 4] [2, 2]
      (cexEmptyRegion.map (fun r => normalizeBounds r.bounds [4, 4])) 0 = 0 := by
  constructor
  · rfl
  · rfl

/-- Claim C2 (amended): for every region list with matching axis counts and
positive chunk sizes, the plan has exactly one loader node per region (`N`
nodes total); every output chunk's task references exactly the loader
indices registered against that chunk, each through the region's single
shared node key and without duplicates; hence materialising the whole array
invokes each loader *at most* once — and exactly once whenever the region's
clamped bounds are non-empty on every axis.  (The frozen claim's
unconditional "exactly once" fails for degenerate regions registered
against no chunk.) -/
theorem one_loader_node_per_region {α : Type} (regions : List (RegionM α))
    (shape chunks : List ℕ)
    (hchunks : chunks.length = shape.length)
    (hreg : ∀ r ∈ regions, r.bounds.length = shape.length)
    (hcs : ∀ c ∈ chunks, 0 < c) (li : ℕ) (hli : li < regions.length) :
    (loaderLayerKeys regions).length = regions.length ∧
    (∀ ci, taskRefs (outputTask shape chunks
        (regions.map (fun r => normalizeBounds r.bounds shape)) ci) =
      chunkLoaders (buildChunkRanges shape chunks)
        (regions.map (fun r => normalizeBounds r.bounds shape)) ci ∧
      (taskRefs (outputTask shape chunks
        (regions.map (fun r => normalizeBounds r.bounds shape)) ci)).Nodup) ∧
    invocationCount shape chunks
      (regions.map (fun r => normalizeBounds r.bounds shape)) li ≤ 1 ∧
    ((∀ b ∈ (regions.map (fun r => normalizeBounds r.bounds shape)).getD li [],
        b.1 < b.2) →
      invocationCount shape chunks
        (regions.map (fun r => normalizeBounds r.bounds shape)) li = 1) := by
  refine ⟨List.length_range _, ?_, ?_, ?_⟩
  · intro ci
    refine ⟨taskRefs_outputTask shape chunks _ ci, ?_⟩
    rw [taskRefs_outputTask shape chunks _ ci]
    exact chunkLoaders_nodup _ _ _
  · unfold invocationCount
    split
    · omega
    · omega
  · intro hne
    have hlb : (regions.map (fun r => normalizeBounds r.bounds shape)).getD li [] =
        normalizeBounds regions[li].bounds shape := by
      rw [List.getD_eq_getElem?_getD, List.getElem?_map, List.getElem?_eq_getElem hli]
      rfl
    rw [hlb] at hne
    have hlblen : (normalizeBounds regions[li].bounds shape).length = shape.length := by
      rw [normalizeBounds_length, hreg regions[li] (List.getElem_mem hli)]
      omega
    have hp0len : ((normalizeBounds regions[li].bounds shape).map Prod.fst).length =
        shape.length := by
      rw [List.length_map, hlblen]
    have hin0 : inShape ((normalizeBounds regions[li].bounds shape).map Prod.fst)
        shape = true :=
      inShape_fst_of_nonempty _ shape hlblen
        (fun pr hpr => normalized_bounds_snd_le (regions[li]).bounds shape pr hpr) hne
    have hcont : containsPt (normalizeBounds regions[li].bounds shape)
        ((normalizeBounds regions[li].bounds shape).map Prod.fst) = true :=
      containsPt_fst _ hne
    have hspan := spanContains_of_containsPt shape chunks
      (normalizeBounds regions[li].bounds shape)
      ((normalizeBounds regions[li].bounds shape).map Prod.fst)
      hchunks hlblen hp0len hcs hin0 hcont
    have hmem : li ∈ chunkLoaders (buildChunkRanges shape chunks)
        (regions.map (fun r => normalizeBounds r.bounds shape))
        (chunkIdxOf chunks ((normalizeBounds regions[li].bounds shape).map Prod.fst)) := by
      unfold chunkLoaders
      rw [List.mem_filter]
      refine ⟨by rw [List.mem_range, List.length_map]; exact hli, ?_⟩
      rw [hlb]
      exact hspan
    have hci := chunkIdxOf_mem_allChunkIdxs shape chunks
      ((normalizeBounds regions[li].bounds shape).map Prod.fst) hchunks hp0len hcs hin0
    have hinv : loaderInvoked shape chunks
        (regions.map (fun r => normalizeBounds r.bounds shape)) li = true := by
      unfold loaderInvoked
      rw [List.any_eq_true]
      refine ⟨chunkIdxOf chunks ((normalizeBounds regions[li].bounds shape).map Prod.fst),
        hci, ?_⟩
      rw [taskRefs_outputTask]
      exact List.elem_iff.mpr hmem
    unfold invocationCount
    rw [hinv]
    rfl

/-- Witness for C2 at the two-region example, `li = 1`. -/
theorem one_loader_node_per_region_witness :
    (loaderLayerKeys twoRegions).length = twoRegions.length ∧
    (∀ ci, taskRefs (outputTask [4, 4] [2, 2]
        (twoRegions.map (fun r => normalizeBounds r.bounds [4, 4])) ci) =
      chunkLoaders (buildChunkRanges [4, 4] [2, 2])
        (twoRegions.map (fun r => normalizeBounds r.bounds [4, 4])) ci ∧
      (taskRefs (outputTask [4, 4] [2, 2]
        (twoRegions.map (fun r => normalizeBounds r.bounds [4, 4])) ci)).Nodup) ∧
    invocationCount [4, 4] [2, 2]
      (twoRegions.map (fun r => normalizeBounds r.bounds [4, 4])) 1 ≤ 1 ∧
    ((∀ b ∈ (twoRegions.map (fun r => normalizeBounds r.bounds [4, 4])).getD 1 [],
        b.1 < b.2) →
      invocationCount [4, 4] [2, 2]
        (twoRegions.map (fun r => normalizeBounds r.bounds [4, 4])) 1 = 1) :=
  one_loader_node_per_region twoRegions [4, 4] [2, 2] rfl
    (by
      intro r hr
      simp only [twoRegions, List.mem_cons, List.not_mem_nil, or_false] at hr
      rcases hr with rfl | rfl <;> rfl)
    (by decide) 1 (by decide)


theorem argminQ_lt_length : ∀ l : List ℚ, l ≠ [] → argminQ l < l.length := by
  intro l
  induction l with
  | nil => intro h; exact absurd rfl h
  | cons x xs ih =>
    intro _
    rcases xs with _ | ⟨y, ys⟩
    · simp [argminQ]
    · rw [argminQ]
      by_cases hx : x ≤ minQ (y :: ys)
      · rw [if_pos hx]
        simp
      · rw [if_neg hx]
        have := ih (by simp)
        simpa using Nat.succ_lt_succ this

theorem argminQ_getD : ∀ l : List ℚ, l ≠ [] → l.getD (argminQ l) 0 = minQ l := by
  intro l
  induction l with
  | nil => intro h; exact absurd rfl h
  | cons x xs ih =>
    intro _
    rcases xs with _ | ⟨y, ys⟩
    · simp [argminQ, minQ]
    · rw [argminQ]
      by_cases hx : x ≤ minQ (y :: ys)
      · rw [if_pos hx]
        rw [List.getD_cons_zero, minQ]
        exact (min_eq_left hx).symm
      · rw [if_neg hx]
        rw [List.getD_cons_succ, ih (by simp), minQ]
        exact (min_eq_right (le_of_lt (lt_of_not_le hx))).symm

theorem cellSelect_spec (tiles : List TileQ) (pt : PointQ) (g : ℤ) (o : TileQ)
    (hne : tiles ≠ [])
    (hsel : (if gapLeThreshold
          (minQ (tiles.map (fun b => sqLengthXY (pSubP pt b.top_l)))) g then
        some (derive_from_diag
          (tiles.getD (argminQ (tiles.map (fun b => sqLengthXY (pSubP pt b.top_l))))
            dummyTile) pt
          (tiles.getD (argminQ (tiles.map (fun b => sqLengthXY (pSubP pt b.top_l))))
            dummyTile).diag)
      else none) = some o) :
    ∃ k, k < tiles.length ∧
      o = derive_from_diag (tiles.getD k dummyTile) pt (tiles.getD k dummyTile).diag ∧
      gapLeThreshold (sqLengthXY (pSubP pt ((tiles.getD k dummyTile).top_l))) g = true := by
  set dists := tiles.map (fun b => sqLengthXY (pSubP pt b.top_l)) with hd
  split at hsel
  case isTrue htest =>
    have hdne : dists ≠ [] := by
      rw [hd]
      intro h
      exact hne (by simpa using h)
    have hklt : argminQ dists < tiles.length := by
      have := argminQ_lt_length dists hdne
      rw [hd, List.length_map] at this
      exact this
    refine ⟨argminQ dists, hklt, (Option.some_inj.mp hsel).symm, ?_⟩
    have hachieve : dists.getD (argminQ dists) 0 = minQ dists := argminQ_getD dists hdne
    have hmap : dists.getD (argminQ dists) 0 =
        sqLengthXY (pSubP pt ((tiles.getD (argminQ dists) dummyTile).top_l)) := by
      rw [hd]
      exact getD_map_of_lt _ tiles 0 dummyTile _ hklt
    rw [← hmap, hachieve]
    exact htest
  case isFalse => exact absurd hsel (by simp)

/-- Claim C10 (amended): provided the first tile is in pixel space with
non-zero x and y diagonal components, `remove_pixel_gaps` raises no error and
performs no count check; every returned tile is a copy (via
`derive_from_diag`) of some input tile placed exactly at a lattice anchor
`(i·diag0.x, j·diag0.y)` derived from the first tile's size, and that source
tile's top-left corner lies within `sqrt(2)·max_gap + 1e-6` of the anchor
(`gapLeThreshold`) — hence an input tile farther than that from every anchor
is never a source and is silently omitted, so the returned list may be
shorter than the input.  The frozen claim's "for every non-empty pixel-space
tile list … without any error" is refuted by the zero-size counterexample:
a first tile with a zero diagonal axis makes the source raise
`ZeroDivisionError` inside `_find_grid_size`. -/
theorem remove_pixel_gaps_lattice (g : ℤ) (t0 : TileQ) (rest : List TileQ)
    (hsp : t0.space = TileSpaceQ.pixel) (hdx : t0.diag.x ≠ 0) (hdy : t0.diag.y ≠ 0) :
    (remove_pixel_gaps g (t0 :: rest)).isSome = true ∧
    ∀ out, remove_pixel_gaps g (t0 :: rest) = some out →
      ∀ o ∈ out, ∃ i j k : ℕ, k < (t0 :: rest).length ∧
        o = derive_from_diag ((t0 :: rest).getD k dummyTile)
          ⟨(i : ℚ) * t0.diag.x, (j : ℚ) * t0.diag.y,
            t0.top_l.z, t0.top_l.c, t0.top_l.t⟩
          ((t0 :: rest).getD k dummyTile).diag ∧
        o.top_l.x = (i : ℚ) * t0.diag.x ∧ o.top_l.y = (j : ℚ) * t0.diag.y ∧
        gapLeThreshold (sqLengthXY (pSubP
          ⟨(i : ℚ) * t0.diag.x, (j : ℚ) * t0.diag.y,
            t0.top_l.z, t0.top_l.c, t0.top_l.t⟩
          (((t0 :: rest).getD k dummyTile).top_l))) g = true := by
  have hne : (t0 :: rest) ≠ [] := by simp
  constructor
  · simp only [remove_pixel_gaps]
    rw [if_neg (by simp [hsp]), if_neg (by simp [hdx, hdy])]
    rfl
  · intro out hout o ho
    simp only [remove_pixel_gaps] at hout
    rw [if_neg (by simp [hsp]), if_neg (by simp [hdx, hdy]), Option.some_inj] at hout
    rw [← hout] at ho
    rw [List.mem_flatMap] at ho
    obtain ⟨i, _, ho⟩ := ho
    rw [List.mem_filterMap] at ho
    obtain ⟨j, _, hsel⟩ := ho
    obtain ⟨k, hklt, hoeq, hthr⟩ :=
      cellSelect_spec (t0 :: rest)
        ⟨(i : ℚ) * t0.diag.x, (j : ℚ) * t0.diag.y, t0.top_l.z, t0.top_l.c, t0.top_l.t⟩
        g o hne hsel
    refine ⟨i, j, k, hklt, hoeq, ?_, ?_, hthr⟩
    · rw [hoeq]; rfl
    · rw [hoeq]; rfl

unseal Rat.sub Rat.add Rat.mul Rat.inv Nat.gcd in
/-- Witness for C10 at `gapPair`: two 10×10 pixel tiles at `(0,0)` and
`(5,5)` with `max_gap = 1`.  The detected grid is 1×1, the single anchor
`(0,0)` selects the first tile, and the second tile (distance `√50` from the
only anchor, beyond the threshold) is silently omitted: the output has one
tile while the input had two, and no error is raised. -/
theorem remove_pixel_gaps_lattice_witness :
    ((mkTileXY 0 0 10 10 TileSpaceQ.pixel).space = TileSpaceQ.pixel ∧
      (mkTileXY 0 0 10 10 TileSpaceQ.pixel).diag.x ≠ 0 ∧
      (mkTileXY 0 0 10 10 TileSpaceQ.pixel).diag.y ≠ 0) ∧
    ((remove_pixel_gaps 1 gapPair).isSome = true ∧
      ∀ out, remove_pixel_gaps 1 gapPair = some out →
        ∀ o ∈ out, ∃ i j k : ℕ, k < gapPair.length ∧
          o = derive_from_diag (gapPair.getD k dummyTile)
            ⟨(i : ℚ) * 10, (j : ℚ) * 10, 0, 0, 0⟩
            (gapPair.getD k dummyTile).diag ∧
          o.top_l.x = (i : ℚ) * 10 ∧ o.top_l.y = (j : ℚ) * 10 ∧
          gapLeThreshold (sqLengthXY (pSubP
            ⟨(i : ℚ) * 10, (j : ℚ) * 10, 0, 0, 0⟩
            ((gapPair.getD k dummyTile).top_l))) 1 = true) ∧
    remove_pixel_gaps 1 gapPair = some [mkTileXY 0 0 10 10 TileSpaceQ.pixel] := by
  refine ⟨⟨rfl, by decide, by decide⟩, ?_, by decide⟩
  exact remove_pixel_gaps_lattice 1 (mkTileXY 0 0 10 10 TileSpaceQ.pixel)
    [mkTileXY 5 5 10 10 TileSpaceQ.pixel] rfl (by decide) (by decide)

theorem diffsQ_cons_cons (a b : ℚ) (l : List ℚ) :
    diffsQ (a :: b :: l) = (b - a) :: diffsQ (b :: l) := rfl

theorem diffsQ_replicate_append (v : ℚ) (m : ℕ) (l : List ℚ) :
    diffsQ (List.replicate (m + 1) v ++ l) = List.replicate m 0 ++ diffsQ (v :: l) := by
  induction m with
  | zero => simp [List.replicate_succ]
  | succ m ih =>
    have h1 : List.replicate (m + 1 + 1) v ++ l = v :: v :: (List.replicate m v ++ l) := by
      simp [List.replicate_succ]
    have h2 : v :: (List.replicate m v ++ l) = List.replicate (m + 1) v ++ l := by
      simp [List.replicate_succ]
    rw [h1, diffsQ_cons_cons, h2, ih, sub_self]
    simp [List.replicate_succ]

theorem filter_replicate_zero (m : ℕ) :
    (List.replicate m (0 : ℚ)).filter (fun x => decide (x > epsGrid)) = [] := by
  rw [List.filter_eq_nil_iff]
  intro a ha
  rw [List.eq_of_mem_replicate ha]
  simp only [decide_eq_true_eq]
  norm_num [epsGrid]

theorem filter_diffs_stepBlocks (L : ℚ) (hL : epsGrid < L) :
    ∀ (ms : List ℕ) (v : ℚ), (∀ m ∈ ms, 1 ≤ m) →
      (diffsQ (stepBlocks v L ms)).filter (fun x => decide (x > epsGrid)) =
        List.replicate (ms.length - 1) L := by
  intro ms
  induction ms with
  | nil => intro v _; simp [stepBlocks, diffsQ]
  | cons m ms ih =>
    intro v hms
    obtain ⟨m', rfl⟩ : ∃ m', m = m' + 1 := ⟨m - 1, by have := hms m (by simp); omega⟩
    rcases ms with _ | ⟨m2, ms'⟩
    · rw [stepBlocks, stepBlocks, List.append_nil]
      have h := diffsQ_replicate_append v m' []
      rw [List.append_nil] at h
      rw [h]
      have h2 : diffsQ [v] = [] := rfl
      rw [h2, List.append_nil, filter_replicate_zero]
      simp
    · obtain ⟨m2', rfl⟩ : ∃ k, m2 = k + 1 := ⟨m2 - 1, by have := hms m2 (by simp); omega⟩
      have hsb : stepBlocks (v + L) L ((m2' + 1) :: ms') =
          (v + L) :: (List.replicate m2' (v + L) ++ stepBlocks (v + L + L) L ms') := by
        rw [stepBlocks, List.replicate_succ, List.cons_append]
      rw [stepBlocks, hsb, diffsQ_replicate_append, diffsQ_cons_cons, ← hsb]
      have hvv : v + L - v = L := by ring
      rw [hvv, List.filter_append, filter_replicate_zero, List.nil_append,
        List.filter_cons_of_pos (by rw [decide_eq_true_eq]; exact hL),
        ih (v + L) (fun x hx => hms x (List.mem_cons_of_mem _ hx))]
      simp [List.replicate_succ]

theorem stepBlocks_le (L : ℚ) (hL : 0 ≤ L) :
    ∀ (ms : List ℕ) (v : ℚ), ∀ b ∈ stepBlocks v L ms, v ≤ b := by
  intro ms
  induction ms with
  | nil => intro v b hb; simp [stepBlocks] at hb
  | cons m ms ih =>
    intro v b hb
    rw [stepBlocks, List.mem_append] at hb
    rcases hb with hb | hb
    · rw [List.eq_of_mem_replicate hb]
    · linarith [ih (v + L) b hb]

theorem pairwise_le_replicate (v : ℚ) (m : ℕ) :
    (List.replicate m v).Pairwise (fun a b => a ≤ b) :=
  List.pairwise_replicate.mpr (Or.inr le_rfl)

theorem stepBlocks_sorted (L : ℚ) (hL : 0 ≤ L) :
    ∀ (ms : List ℕ) (v : ℚ), (stepBlocks v L ms).Pairwise (fun a b => a ≤ b) := by
  intro ms
  induction ms with
  | nil => intro v; simp [stepBlocks]
  | cons m ms ih =>
    intro v
    rw [stepBlocks, List.pairwise_append]
    refine ⟨pairwise_le_replicate v m, ih (v + L), ?_⟩
    intro a ha b hb
    rw [List.eq_of_mem_replicate ha]
    linarith [stepBlocks_le L hL ms (v + L) b hb]

theorem sortQ_eq_of_perm_sorted (l tgt : List ℚ) (hp : l.Perm tgt)
    (hs : tgt.Pairwise (fun a b => a ≤ b)) : sortQ l = tgt := by
  apply List.eq_of_perm_of_sorted ((List.mergeSort_perm l _).trans hp) ?_ hs
  have h := @List.sorted_mergeSort ℚ (fun a b => decide (a ≤ b))
    (fun a b c hab hbc =>
      decide_eq_true (le_trans (of_decide_eq_true hab) (of_decide_eq_true hbc)))
    (fun a b => by rcases le_total a b with h | h <;> simp [h]) l
  exact h.imp (fun hab => of_decide_eq_true hab)

theorem minQ_le_of_mem : ∀ (l : List ℚ), ∀ a ∈ l, minQ l ≤ a := by
  intro l
  induction l with
  | nil => simp
  | cons x xs ih =>
    intro a ha
    rcases xs with _ | ⟨y, ys⟩
    · simp only [List.mem_singleton] at ha
      subst ha
      exact le_refl _
    · rw [minQ]
      rcases List.mem_cons.mp ha with rfl | ha'
      · exact min_le_left _ _
      · exact le_trans (min_le_right _ _) (ih a ha')

theorem le_minQ : ∀ (l : List ℚ), l ≠ [] → ∀ c : ℚ, (∀ a ∈ l, c ≤ a) → c ≤ minQ l := by
  intro l
  induction l with
  | nil => intro h; exact absurd rfl h
  | cons x xs ih =>
    intro _ c hc
    rcases xs with _ | ⟨y, ys⟩
    · exact hc x (by simp)
    · rw [minQ, le_min_iff]
      exact ⟨hc x (by simp), ih (by simp) c (fun a ha => hc a (List.mem_cons_of_mem _ ha))⟩

theorem le_pyMaxQ : ∀ (l : List ℚ), ∀ a ∈ l, a ≤ pyMaxQ l := by
  intro l
  induction l with
  | nil => simp
  | cons x xs ih =>
    intro a ha
    rcases xs with _ | ⟨y, ys⟩
    · simp only [List.mem_singleton] at ha
      subst ha
      exact le_refl _
    · rw [pyMaxQ]
      rcases List.mem_cons.mp ha with rfl | ha'
      · exact le_max_left _ _
      · exact le_trans (ih a ha') (le_max_right _ _)

theorem pyMaxQ_mem : ∀ (l : List ℚ), l ≠ [] → pyMaxQ l ∈ l := by
  intro l
  induction l with
  | nil => intro h; exact absurd rfl h
  | cons x xs ih =>
    intro _
    rcases xs with _ | ⟨y, ys⟩
    · simp [pyMaxQ]
    · rw [pyMaxQ]
      rcases max_choice x (pyMaxQ (y :: ys)) with h | h <;> rw [h]
      · simp
      · exact List.mem_cons_of_mem x (ih (by simp))

theorem npRound_natCast (n : ℕ) : npRound (n : ℚ) = n := by
  rw [npRound, Int.floor_natCast, if_pos]
  push_cast
  norm_num

theorem sq_add_sq_eq_zero {x y : ℚ} (h : x ^ 2 + y ^ 2 = 0) : x = 0 ∧ y = 0 := by
  have hx : x ^ 2 = 0 := le_antisymm (by nlinarith [sq_nonneg y]) (sq_nonneg x)
  have hy : y ^ 2 = 0 := le_antisymm (by nlinarith [sq_nonneg x]) (sq_nonneg y)
  exact ⟨(pow_eq_zero_iff two_ne_zero).mp hx, (pow_eq_zero_iff two_ne_zero).mp hy⟩

theorem allcloseB_of_all_eq (l : List ℚ) (r : ℚ) (h : ∀ a ∈ l, a = r) :
    allcloseB l r = true := by
  rw [allcloseB, List.all_eq_true]
  intro a ha
  rw [decide_eq_true_eq, h a ha, sub_self, abs_zero]
  have h1 : (0:ℚ) ≤ rtolQ * |r| := mul_nonneg (by norm_num [rtolQ]) (abs_nonneg r)
  have h2 : (0:ℚ) < atolQ := by norm_num [atolQ]
  linarith

theorem latticeTiles_length (R C : ℕ) (ox oy : ℚ) (d : VectorQ) (z0 : ℚ) (c0 t0 : ℤ)
    (ps : PixelSizeQ) (sp : TileSpaceQ) :
    (latticeTiles R C ox oy d z0 c0 t0 ps sp).length = R * C := by
  simp [latticeTiles, List.length_flatMap, Function.comp_def, List.length_map,
    List.length_range, List.map_const', List.sum_replicate, smul_eq_mul]

theorem mem_latticeTiles {R C : ℕ} {ox oy : ℚ} {d : VectorQ} {z0 : ℚ} {c0 t0 : ℤ}
    {ps : PixelSizeQ} {sp : TileSpaceQ} {t : TileQ} :
    t ∈ latticeTiles R C ox oy d z0 c0 t0 ps sp ↔
      ∃ j, j < R ∧ ∃ i, i < C ∧
        t = ⟨⟨(i:ℚ)*ox, (j:ℚ)*oy, z0, c0, t0⟩, d, ps, sp⟩ := by
  rw [latticeTiles, List.mem_flatMap]
  constructor
  · rintro ⟨j, hj, ht⟩
    rw [List.mem_map] at ht
    obtain ⟨i, hi, rfl⟩ := ht
    exact ⟨j, List.mem_range.mp hj, i, List.mem_range.mp hi, rfl⟩
  · rintro ⟨j, hj, i, hi, rfl⟩
    exact ⟨j, List.mem_range.mpr hj, List.mem_map.mpr ⟨i, List.mem_range.mpr hi, rfl⟩⟩

theorem flatten_replicate_cons_perm {α : Type} (R : ℕ) (x : α) (rest : List α) :
    ((List.replicate R (x :: rest)).flatten).Perm
      (List.replicate R x ++ (List.replicate R rest).flatten) := by
  induction R with
  | zero => simp
  | succ R ih =>
    rw [List.replicate_succ, List.flatten_cons, List.replicate_succ, List.replicate_succ,
      List.flatten_cons, List.cons_append, List.cons_append]
    refine List.Perm.cons x ?_
    refine (List.Perm.append_left rest ih).trans ?_
    rw [← List.append_assoc, ← List.append_assoc]
    exact List.perm_append_comm.append_right _

theorem flatten_replicate_row_perm (L : ℚ) :
    ∀ (C : ℕ) (R : ℕ) (v : ℚ),
      ((List.replicate R ((List.range C).map (fun i : ℕ => v + (i : ℚ) * L))).flatten).Perm
        (stepBlocks v L (List.replicate C R)) := by
  intro C
  induction C with
  | zero =>
    intro R v
    have h : ∀ n : ℕ, (List.replicate n ([] : List ℚ)).flatten = [] := by
      intro n
      induction n with
      | zero => rfl
      | succ n ih => rw [List.replicate_succ, List.flatten_cons, List.nil_append, ih]
    rw [List.range_zero, List.map_nil, h R]
    exact List.Perm.refl _
  | succ C ih =>
    intro R v
    have hrow : (List.range (C+1)).map (fun i : ℕ => v + (i : ℚ) * L) =
        v :: (List.range C).map (fun i : ℕ => (v + L) + (i : ℚ) * L) := by
      rw [List.range_succ_eq_map, List.map_cons, List.map_map]
      refine congrArg₂ _ (by push_cast; ring) (List.map_congr_left ?_)
      intro i _
      simp only [Function.comp]
      push_cast
      ring
    rw [hrow]
    refine (flatten_replicate_cons_perm R v _).trans ?_
    refine (List.Perm.append_left _ (ih R (v + L))).trans ?_
    rw [show stepBlocks v L (List.replicate (C+1) R) =
        List.replicate R v ++ stepBlocks (v + L) L (List.replicate C R) from by
      rw [List.replicate_succ, stepBlocks]]

theorem latticeXs_perm (R C : ℕ) (ox oy : ℚ) (d : VectorQ) (z0 : ℚ) (c0 t0 : ℤ)
    (ps : PixelSizeQ) (sp : TileSpaceQ) :
    ((latticeTiles R C ox oy d z0 c0 t0 ps sp).map (fun t => t.top_l.x)).Perm
      (stepBlocks 0 ox (List.replicate C R)) := by
  have h2 : (fun j : ℕ => List.map (fun t : TileQ => t.top_l.x)
      ((List.range C).map (fun i : ℕ =>
        (⟨⟨(i:ℚ)*ox, (j:ℚ)*oy, z0, c0, t0⟩, d, ps, sp⟩ : TileQ)))) =
      (fun _ : ℕ => (List.range C).map (fun i : ℕ => (0:ℚ) + (i : ℚ) * ox)) := by
    funext j
    rw [List.map_map]
    refine List.map_congr_left ?_
    intro i _
    simp only [Function.comp]
    ring
  have h1 : (latticeTiles R C ox oy d z0 c0 t0 ps sp).map (fun t => t.top_l.x) =
      (List.replicate R ((List.range C).map (fun i : ℕ => (0:ℚ) + (i : ℚ) * ox))).flatten := by
    rw [latticeTiles, List.map_flatMap, h2, List.flatMap_def, List.map_const', List.length_range]
  rw [h1]
  exact flatten_replicate_row_perm ox C R 0

theorem flatMap_range_replicate_eq_stepBlocks (L : ℚ) (C : ℕ) :
    ∀ (R : ℕ) (v : ℚ),
      (List.range R).flatMap (fun j : ℕ => List.replicate C (v + (j : ℚ) * L)) =
        stepBlocks v L (List.replicate R C) := by
  intro R
  induction R with
  | zero => intro v; rfl
  | succ R ih =>
    intro v
    rw [List.range_succ_eq_map, List.flatMap_cons, List.flatMap_map]
    have h : (fun a : ℕ => List.replicate C (v + ((a.succ : ℕ) : ℚ) * L)) =
        (fun a : ℕ => List.replicate C ((v + L) + (a : ℚ) * L)) := by
      funext a
      congr 1
      push_cast
      ring
    rw [h, ih (v + L), show v + ((0:ℕ):ℚ) * L = v from by push_cast; ring,
      List.replicate_succ, stepBlocks]

theorem latticeYs_eq (R C : ℕ) (ox oy : ℚ) (d : VectorQ) (z0 : ℚ) (c0 t0 : ℤ)
    (ps : PixelSizeQ) (sp : TileSpaceQ) :
    (latticeTiles R C ox oy d z0 c0 t0 ps sp).map (fun t => t.top_l.y) =
      stepBlocks 0 oy (List.replicate R C) := by
  have h2 : (fun j : ℕ => List.map (fun t : TileQ => t.top_l.y)
      ((List.range C).map (fun i : ℕ =>
        (⟨⟨(i:ℚ)*ox, (j:ℚ)*oy, z0, c0, t0⟩, d, ps, sp⟩ : TileQ)))) =
      (fun j : ℕ => List.replicate C ((0:ℚ) + (j : ℚ) * oy)) := by
    funext j
    rw [List.map_map]
    rw [show ((fun t : TileQ => t.top_l.y) ∘ (fun i : ℕ =>
        (⟨⟨(i:ℚ)*ox, (j:ℚ)*oy, z0, c0, t0⟩, d, ps, sp⟩ : TileQ))) =
        (fun _ : ℕ => (0:ℚ) + (j:ℚ)*oy) from by
      funext i
      simp only [Function.comp]
      ring]
    rw [List.map_const', List.length_range]
  rw [latticeTiles, List.map_flatMap, h2]
  exact flatMap_range_replicate_eq_stepBlocks oy C R 0

theorem check_if_regular_grid_lattice (R C : ℕ) (ox oy : ℚ) (d : VectorQ)
    (z0 : ℚ) (c0 t0 : ℤ) (ps : PixelSizeQ) (sp : TileSpaceQ) (tiles : List TileQ)
    (hR : 2 ≤ R) (hC : 2 ≤ C) (hox : epsGrid < ox) (hoy : epsGrid < oy)
    (hperm : tiles.Perm (latticeTiles R C ox oy d z0 c0 t0 ps sp)) :
    check_if_regular_grid tiles = (none, ⟨d.x, d.y, ox, oy, (C : ℤ), (R : ℤ)⟩) := by
  have heps : (0:ℚ) < epsGrid := by norm_num [epsGrid]
  have hox0 : (0:ℚ) < ox := lt_trans heps hox
  have hoy0 : (0:ℚ) < oy := lt_trans heps hoy
  have hlen : tiles.length = R * C := by
    rw [hperm.length_eq, latticeTiles_length]
  have hRC4 : 4 ≤ R * C := le_trans (by norm_num) (Nat.mul_le_mul hR hC)
  rw [← hlen] at hRC4
  rcases tiles with _ | ⟨t1, _ | ⟨t2, ts⟩⟩
  · exact absurd hRC4 (by norm_num)
  · exact absurd hRC4 (by norm_num)
  have hmem : ∀ t ∈ (t1 :: t2 :: ts), ∃ j, j < R ∧ ∃ i, i < C ∧
      t = ⟨⟨(i:ℚ)*ox, (j:ℚ)*oy, z0, c0, t0⟩, d, ps, sp⟩ :=
    fun t ht => mem_latticeTiles.mp (hperm.subset ht)
  have hlx : ∀ t ∈ (t1 :: t2 :: ts), (botR t).x - t.top_l.x = d.x := by
    intro t ht
    obtain ⟨j, _, i, _, rfl⟩ := hmem t ht
    show (i:ℚ)*ox + d.x - (i:ℚ)*ox = d.x
    ring
  have hly : ∀ t ∈ (t1 :: t2 :: ts), (botR t).y - t.top_l.y = d.y := by
    intro t ht
    obtain ⟨j, _, i, _, rfl⟩ := hmem t ht
    show (j:ℚ)*oy + d.y - (j:ℚ)*oy = d.y
    ring
  have hlenx' : tileLengthsX (t1 :: t2 :: ts) =
      d.x :: d.x :: List.replicate ts.length d.x := by
    rw [tileLengthsX, List.map_cons, List.map_cons, hlx t1 (by simp), hlx t2 (by simp)]
    congr 1
    congr 1
    rw [List.eq_replicate_iff]
    refine ⟨by simp, ?_⟩
    intro b hb
    obtain ⟨t, ht, rfl⟩ := List.mem_map.mp hb
    exact hlx t (by simp [ht])
  have hleny' : tileLengthsY (t1 :: t2 :: ts) =
      d.y :: d.y :: List.replicate ts.length d.y := by
    rw [tileLengthsY, List.map_cons, List.map_cons, hly t1 (by simp), hly t2 (by simp)]
    congr 1
    congr 1
    rw [List.eq_replicate_iff]
    refine ⟨by simp, ?_⟩
    intro b hb
    obtain ⟨t, ht, rfl⟩ := List.mem_map.mp hb
    exact hly t (by simp [ht])
  have hallx : allcloseB (d.x :: d.x :: List.replicate ts.length d.x) d.x = true :=
    allcloseB_of_all_eq _ _ (by
      intro a ha
      rcases List.mem_cons.mp ha with rfl | ha
      · rfl
      rcases List.mem_cons.mp ha with rfl | ha
      · rfl
      · exact List.eq_of_mem_replicate ha)
  have hally : allcloseB (d.y :: d.y :: List.replicate ts.length d.y) d.y = true :=
    allcloseB_of_all_eq _ _ (by
      intro a ha
      rcases List.mem_cons.mp ha with rfl | ha
      · rfl
      rcases List.mem_cons.mp ha with rfl | ha
      · rfl
      · exact List.eq_of_mem_replicate ha)
  have hxs : sortQ ((t1 :: t2 :: ts).map (fun t => t.top_l.x)) =
      stepBlocks 0 ox (List.replicate C R) :=
    sortQ_eq_of_perm_sorted _ _
      ((hperm.map _).trans (latticeXs_perm R C ox oy d z0 c0 t0 ps sp))
      (stepBlocks_sorted ox (le_of_lt hox0) _ 0)
  have hys : sortQ ((t1 :: t2 :: ts).map (fun t => t.top_l.y)) =
      stepBlocks 0 oy (List.replicate R C) := by
    refine sortQ_eq_of_perm_sorted _ _ ?_ (stepBlocks_sorted oy (le_of_lt hoy0) _ 0)
    rw [← latticeYs_eq R C ox oy d z0 c0 t0 ps sp]
    exact hperm.map _
  have hofx : offsetsFilt ((t1 :: t2 :: ts).map (fun t => t.top_l.x)) =
      List.replicate (C - 1) ox := by
    rw [offsetsFilt, hxs, filter_diffs_stepBlocks ox hox _ 0
      (fun m hm => by rw [List.eq_of_mem_replicate hm]; omega), List.length_replicate]
  have hofy : offsetsFilt ((t1 :: t2 :: ts).map (fun t => t.top_l.y)) =
      List.replicate (R - 1) oy := by
    rw [offsetsFilt, hys, filter_diffs_stepBlocks oy hoy _ 0
      (fun m hm => by rw [List.eq_of_mem_replicate hm]; omega), List.length_replicate]
  have hpx : pickOffset (offsetsFilt ((t1 :: t2 :: ts).map (fun t => t.top_l.x))) =
      some ox := by
    rw [hofx]
    obtain ⟨C2, hC2⟩ : ∃ k, C - 1 = k + 1 := ⟨C - 2, by omega⟩
    have hac : allcloseB (ox :: List.replicate C2 ox) ox = true :=
      allcloseB_of_all_eq _ _ (by
        intro a ha
        rcases List.mem_cons.mp ha with rfl | ha
        · rfl
        · exact List.eq_of_mem_replicate ha)
    rw [hC2, List.replicate_succ]
    simp only [pickOffset]
    rw [if_pos hac]
  have hpy : pickOffset (offsetsFilt ((t1 :: t2 :: ts).map (fun t => t.top_l.y))) =
      some oy := by
    rw [hofy]
    obtain ⟨R2, hR2⟩ : ∃ k, R - 1 = k + 1 := ⟨R - 2, by omega⟩
    have hac : allcloseB (oy :: List.replicate R2 oy) oy = true :=
      allcloseB_of_all_eq _ _ (by
        intro a ha
        rcases List.mem_cons.mp ha with rfl | ha
        · rfl
        · exact List.eq_of_mem_replicate ha)
    rw [hR2, List.replicate_succ]
    simp only [pickOffset]
    rw [if_pos hac]
  have hslant : slantAll (t1 :: t2 :: ts) = false := by
    obtain ⟨b, hbR, a, haC, ht1⟩ := hmem t1 (by simp)
    have hb'R : (if b = 0 then 1 else 0) < R := by split <;> omega
    have hb'ne : (if b = 0 then 1 else 0) ≠ b := by split <;> omega
    have hw : (⟨⟨(a:ℚ)*ox, ((if b = 0 then 1 else 0 : ℕ):ℚ)*oy, z0, c0, t0⟩, d, ps, sp⟩ :
        TileQ) ∈ t1 :: t2 :: ts :=
      hperm.mem_iff.mpr (mem_latticeTiles.mpr ⟨_, hb'R, a, haC, rfl⟩)
    have hwne : (⟨⟨(a:ℚ)*ox, ((if b = 0 then 1 else 0 : ℕ):ℚ)*oy, z0, c0, t0⟩, d, ps, sp⟩ :
        TileQ) ≠ t1 := by
      rw [ht1]
      intro he
      apply hb'ne
      have h1 : ((if b = 0 then 1 else 0 : ℕ):ℚ) * oy = (b:ℚ) * oy :=
        congrArg (fun t : TileQ => t.top_l.y) he
      have h2 := mul_right_cancel₀ (ne_of_gt hoy0) h1
      exact_mod_cast h2
    have hwrest := (List.mem_cons.mp hw).resolve_left hwne
    rw [slantAll, Bool.eq_false_iff]
    intro hall
    have hf := List.all_eq_true.mp hall _ hwrest
    rw [Bool.and_eq_true] at hf
    have hx0 := of_decide_eq_true hf.1
    rw [ht1] at hx0
    have : epsGrid ≤ (a:ℚ)*ox - (a:ℚ)*ox := hx0
    rw [sub_self] at this
    linarith
  have hmaxx : pyMaxQ ((t1 :: t2 :: ts).map (fun t => t.top_l.x)) =
      ((C - 1 : ℕ) : ℚ) * ox := by
    apply le_antisymm
    · have hm := pyMaxQ_mem ((t1 :: t2 :: ts).map (fun t => t.top_l.x)) (by simp)
      obtain ⟨t, ht, hteq⟩ := List.mem_map.mp hm
      obtain ⟨j, hj, i, hi, rfl⟩ := hmem t ht
      rw [← hteq]
      have hic : ((i:ℕ):ℚ) ≤ ((C - 1 : ℕ) : ℚ) := by
        have h3 : i ≤ C - 1 := by omega
        exact_mod_cast h3
      exact mul_le_mul_of_nonneg_right hic (le_of_lt hox0)
    · apply le_pyMaxQ
      apply List.mem_map.mpr
      refine ⟨⟨⟨((C - 1 : ℕ):ℚ) * ox, ((0:ℕ):ℚ) * oy, z0, c0, t0⟩, d, ps, sp⟩, ?_, rfl⟩
      exact hperm.mem_iff.mpr (mem_latticeTiles.mpr ⟨0, by omega, C - 1, by omega, rfl⟩)
  have hmaxy : pyMaxQ ((t1 :: t2 :: ts).map (fun t => t.top_l.y)) =
      ((R - 1 : ℕ) : ℚ) * oy := by
    apply le_antisymm
    · have hm := pyMaxQ_mem ((t1 :: t2 :: ts).map (fun t => t.top_l.y)) (by simp)
      obtain ⟨t, ht, hteq⟩ := List.mem_map.mp hm
      obtain ⟨j, hj, i, hi, rfl⟩ := hmem t ht
      rw [← hteq]
      have hic : ((j:ℕ):ℚ) ≤ ((R - 1 : ℕ) : ℚ) := by
        have h3 : j ≤ R - 1 := by omega
        exact_mod_cast h3
      exact mul_le_mul_of_nonneg_right hic (le_of_lt hoy0)
    · apply le_pyMaxQ
      apply List.mem_map.mpr
      refine ⟨⟨⟨((0:ℕ):ℚ) * ox, ((R - 1 : ℕ):ℚ) * oy, z0, c0, t0⟩, d, ps, sp⟩, ?_, rfl⟩
      exact hperm.mem_iff.mpr (mem_latticeTiles.mpr ⟨R - 1, by omega, 0, by omega, rfl⟩)
  have hfgs : find_grid_size (t1 :: t2 :: ts) ox oy = ((C : ℤ), (R : ℤ)) := by
    simp only [find_grid_size]
    rw [hmaxx, hmaxy, mul_div_cancel_right₀ _ (ne_of_gt hox0),
      mul_div_cancel_right₀ _ (ne_of_gt hoy0), npRound_natCast, npRound_natCast]
    simp only [Prod.mk.injEq]
    constructor <;> omega
  have hL3 : 2 < (t1 :: t2 :: ts).length := by simp at hRC4 ⊢; omega
  simp only [List.map_cons] at hpx hpy
  unfold check_if_regular_grid
  simp [hlenx', hleny', hallx, hally, hpx, hpy, hslant, hfgs, hL3]

/-- Claim C3 (amended): for every perfectly regular `R`-row-by-`C`-column
lattice of equal-size tiles — presented in any order — with per-axis offsets
STRICTLY GREATER than the `1e-6` filtering threshold (not merely positive),
`check_if_regular_grid` succeeds and recovers the geometry exactly:
`length_x`/`length_y` are the common tile sizes, `offset_x`/`offset_y` the
true spacings, and `num_x = C`, `num_y = R`.  The frozen claim's "positive
per-axis offsets" is refuted by the sub-threshold counterexample: offsets of
`5e-7` are filtered out by test 2, the offset defaults to `1.0` and
`num_x` comes out `1` instead of `C`. -/
theorem grid_analyzer_recovers_lattice (R C : ℕ) (ox oy : ℚ) (d : VectorQ)
    (z0 : ℚ) (c0 t0 : ℤ) (ps : PixelSizeQ) (sp : TileSpaceQ) (tiles : List TileQ)
    (hR : 2 ≤ R) (hC : 2 ≤ C) (hox : epsGrid < ox) (hoy : epsGrid < oy)
    (hperm : tiles.Perm (latticeTiles R C ox oy d z0 c0 t0 ps sp)) :
    check_if_regular_grid tiles = (none, ⟨d.x, d.y, ox, oy, (C : ℤ), (R : ℤ)⟩) :=
  check_if_regular_grid_lattice R C ox oy d z0 c0 t0 ps sp tiles hR hC hox hoy hperm

/-- Witness for C3: the row-major 2×2 unit lattice with unit offsets is
detected exactly, with `num_x = num_y = 2`. -/
theorem grid_analyzer_recovers_lattice_witness :
    (2 ≤ 2 ∧ epsGrid < (1:ℚ)) ∧
    check_if_regular_grid (latticeTiles 2 2 1 1 ⟨1, 1, 1, 1, 1⟩ 0 0 0 ⟨1, 1, 1⟩
        TileSpaceQ.real) =
      (none, ⟨1, 1, 1, 1, (2:ℤ), (2:ℤ)⟩) :=
  ⟨⟨le_refl 2, by norm_num [epsGrid]⟩,
    grid_analyzer_recovers_lattice 2 2 1 1 ⟨1, 1, 1, 1, 1⟩ 0 0 0 ⟨1, 1, 1⟩
      TileSpaceQ.real _ (le_refl 2) (le_refl 2) (by norm_num [epsGrid])
      (by norm_num [epsGrid]) (List.Perm.refl _)⟩

theorem flatMap_append_perm {α β : Type} (l : List α) (g h : α → List β) :
    (l.flatMap (fun a => g a ++ h a)).Perm (l.flatMap g ++ l.flatMap h) := by
  induction l with
  | nil => simp
  | cons a l ih =>
    rw [List.flatMap_cons, List.flatMap_cons, List.flatMap_cons]
    refine (List.Perm.append_left _ ih).trans ?_
    rw [List.append_assoc, List.append_assoc]
    refine List.Perm.append_left _ ?_
    rw [← List.append_assoc, ← List.append_assoc]
    exact List.perm_append_comm.append_right _

theorem flatMap_singleton_map {α β : Type} (l : List α) (f : α → β) :
    (l.flatMap fun a => [f a]) = l.map f := by
  induction l with
  | nil => rfl
  | cons a l ih =>
    rw [List.flatMap_cons, List.map_cons, ih]
    rfl

theorem flatMap_range_swap_perm {α : Type} (f : ℕ → ℕ → α) :
    ∀ (A B : ℕ),
      ((List.range A).flatMap (fun a => (List.range B).map (fun b => f a b))).Perm
        ((List.range B).flatMap (fun b => (List.range A).map (fun a => f a b))) := by
  intro A
  induction A with
  | zero =>
    intro B
    simp
  | succ A ih =>
    intro B
    rw [List.range_succ, List.flatMap_append, List.flatMap_singleton]
    refine ((ih B).append_right _).trans ?_
    have h : (fun b => (List.range A ++ [A]).map (fun a => f a b)) =
        (fun b => (List.range A).map (fun a => f a b) ++ [f A b]) := by
      funext b
      rw [List.map_append, List.map_singleton]
    rw [h]
    refine List.Perm.trans ?_ (flatMap_append_perm (List.range B) _ _).symm
    rw [flatMap_singleton_map]

theorem gridAssign_cell (ts' : List TileQ) (R C : ℕ) (d : VectorQ)
    (z0 : ℚ) (c0 t0 : ℤ) (ps : PixelSizeQ) (sp : TileSpaceQ) (i j : ℕ)
    (hdx : epsGrid < d.x) (hdy : epsGrid < d.y)
    (hmem' : ∀ t ∈ ts', ∃ b, b < R ∧ ∃ a, a < C ∧
      t = ⟨⟨(a:ℚ)*d.x, (b:ℚ)*d.y, z0, c0, t0⟩, d, ps, sp⟩)
    (hij : (⟨⟨(i:ℚ)*d.x, (j:ℚ)*d.y, z0, c0, t0⟩, d, ps, sp⟩ : TileQ) ∈ ts') :
    (if sqLtTol (minQ (ts'.map (fun b => sqLengthXY (pSubP
          ⟨(i:ℚ) * d.x, (j:ℚ) * d.y, z0, c0, t0⟩ b.top_l)))) (min d.x d.y / 100) then
       some (derive_from_diag
         (ts'.getD (argminQ (ts'.map (fun b => sqLengthXY (pSubP
           ⟨(i:ℚ) * d.x, (j:ℚ) * d.y, z0, c0, t0⟩ b.top_l)))) dummyTile)
         ⟨(i:ℚ) * d.x, (j:ℚ) * d.y, z0, c0, t0⟩
         (ts'.getD (argminQ (ts'.map (fun b => sqLengthXY (pSubP
           ⟨(i:ℚ) * d.x, (j:ℚ) * d.y, z0, c0, t0⟩ b.top_l)))) dummyTile).diag)
     else none) =
    some (⟨⟨(i:ℚ)*d.x, (j:ℚ)*d.y, z0, c0, t0⟩, d, ps, sp⟩ : TileQ) := by
  have hne : ts' ≠ [] := by
    intro h
    rw [h] at hij
    exact absurd hij (by simp)
  set dists := ts'.map (fun b => sqLengthXY (pSubP
    ⟨(i:ℚ) * d.x, (j:ℚ) * d.y, z0, c0, t0⟩ b.top_l)) with hdists
  have hdne : dists ≠ [] := by
    rw [hdists]
    intro h
    exact hne (by simpa using h)
  have h0 : (0:ℚ) ∈ dists := by
    rw [hdists]
    refine List.mem_map.mpr ⟨_, hij, ?_⟩
    show ((i:ℚ)*d.x - (i:ℚ)*d.x)^2 + ((j:ℚ)*d.y - (j:ℚ)*d.y)^2 = 0
    ring
  have hnn : ∀ a ∈ dists, (0:ℚ) ≤ a := by
    intro a ha
    rw [hdists] at ha
    obtain ⟨t, _, rfl⟩ := List.mem_map.mp ha
    show (0:ℚ) ≤ (pSubP ⟨(i:ℚ) * d.x, (j:ℚ) * d.y, z0, c0, t0⟩ t.top_l).x ^ 2 +
      (pSubP ⟨(i:ℚ) * d.x, (j:ℚ) * d.y, z0, c0, t0⟩ t.top_l).y ^ 2
    positivity
  have hmin : minQ dists = 0 :=
    le_antisymm (minQ_le_of_mem dists 0 h0) (le_minQ dists hdne 0 hnn)
  have hx0 : (0:ℚ) < d.x := lt_trans (by norm_num [epsGrid]) hdx
  have hy0 : (0:ℚ) < d.y := lt_trans (by norm_num [epsGrid]) hdy
  have htol : (0:ℚ) < min d.x d.y / 100 := div_pos (lt_min hx0 hy0) (by norm_num)
  have hcond : sqLtTol (minQ dists) (min d.x d.y / 100) = true := by
    rw [hmin, sqLtTol, Bool.and_eq_true]
    exact ⟨decide_eq_true htol, decide_eq_true (pow_pos htol 2)⟩
  rw [if_pos hcond, Option.some_inj]
  have hkl : argminQ dists < ts'.length := by
    have := argminQ_lt_length dists hdne
    rw [hdists, List.length_map] at this
    exact this
  have hclmem : ts'.getD (argminQ dists) dummyTile ∈ ts' := by
    rw [List.getD_eq_getElem _ _ hkl]
    exact List.getElem_mem hkl
  obtain ⟨b2, _, a2, _, hcl⟩ := hmem' _ hclmem
  rw [hcl]
  rfl

/-- Claim C6 (amended): grid-snap is idempotent on gapless snapped lattices.
For every tile list that is (in any order) a full `R`-row-by-`C`-column
lattice (`R, C ≥ 2`) of equal-size tiles placed at the canonical positions
`(i·diag.x, j·diag.y)` with tile sizes above the `1e-6` threshold — the shape
of a successful grid-mode output whose detected offsets equal the tile
lengths — re-running grid detection plus `resolve_grid_tiles_overlap`
succeeds and returns the same multiset of tiles (a fixed point up to
enumeration order).  The frozen claim's unconditional form is refuted by the
counterexample: a partial-lattice snap output is declared slanted on
re-detection, so re-running grid mode fails. -/
theorem grid_snap_idempotent (R C : ℕ) (d : VectorQ) (z0 : ℚ) (c0 t0 : ℤ)
    (ps : PixelSizeQ) (sp : TileSpaceQ) (tiles : List TileQ)
    (hR : 2 ≤ R) (hC : 2 ≤ C) (hdx : epsGrid < d.x) (hdy : epsGrid < d.y)
    (hperm : tiles.Perm (latticeTiles R C d.x d.y d z0 c0 t0 ps sp)) :
    ∃ out, resolve_grid_mode tiles = Except.ok out ∧ out.Perm tiles := by
  have hcheck := check_if_regular_grid_lattice R C d.x d.y d z0 c0 t0 ps sp tiles
    hR hC hdx hdy hperm
  have hlen : tiles.length = R * C := by rw [hperm.length_eq, latticeTiles_length]
  have hRC4 : 4 ≤ R * C := le_trans (by norm_num) (Nat.mul_le_mul hR hC)
  rw [← hlen] at hRC4
  rcases tiles with _ | ⟨t1, rest⟩
  · exact absurd hRC4 (by norm_num)
  have hsortperm : (sort_tiles_by_distance (t1 :: rest)).Perm (t1 :: rest) :=
    List.mergeSort_perm _ _
  obtain ⟨s0, srest, hsval⟩ : ∃ s0 srest,
      sort_tiles_by_distance (t1 :: rest) = s0 :: srest := by
    cases hs : sort_tiles_by_distance (t1 :: rest) with
    | nil =>
      have h := hsortperm.length_eq
      rw [hs] at h
      simp at h
    | cons s0 srest => exact ⟨s0, srest, rfl⟩
  have hmem : ∀ t ∈ (t1 :: rest), ∃ j, j < R ∧ ∃ i, i < C ∧
      t = ⟨⟨(i:ℚ)*d.x, (j:ℚ)*d.y, z0, c0, t0⟩, d, ps, sp⟩ :=
    fun t ht => mem_latticeTiles.mp (hperm.subset ht)
  have hmem' : ∀ t ∈ (s0 :: srest), ∃ j, j < R ∧ ∃ i, i < C ∧
      t = ⟨⟨(i:ℚ)*d.x, (j:ℚ)*d.y, z0, c0, t0⟩, d, ps, sp⟩ := by
    intro t ht
    apply hmem
    apply hsortperm.subset
    rw [hsval]
    exact ht
  have hs0 : s0.top_l.z = z0 ∧ s0.top_l.c = c0 ∧ s0.top_l.t = t0 := by
    obtain ⟨j, _, i, _, rfl⟩ := hmem' s0 (by simp)
    exact ⟨rfl, rfl, rfl⟩
  have hlatmem : ∀ i j : ℕ, i < C → j < R →
      (⟨⟨(i:ℚ)*d.x, (j:ℚ)*d.y, z0, c0, t0⟩, d, ps, sp⟩ : TileQ) ∈ s0 :: srest := by
    intro i j hiC hjR
    rw [← hsval]
    exact hsortperm.mem_iff.mpr (hperm.mem_iff.mpr
      (mem_latticeTiles.mpr ⟨j, hjR, i, hiC, rfl⟩))
  have hassign : gridAssign (sort_tiles_by_distance (t1 :: rest))
      ⟨d.x, d.y, d.x, d.y, (C:ℤ), (R:ℤ)⟩ =
      (List.range C).flatMap (fun i : ℕ => (List.range R).map (fun j : ℕ =>
        (⟨⟨(i:ℚ)*d.x, (j:ℚ)*d.y, z0, c0, t0⟩, d, ps, sp⟩ : TileQ))) := by
    rw [hsval]
    simp only [gridAssign]
    rw [hs0.1, hs0.2.1, hs0.2.2]
    rw [show ((C:ℤ)).toNat = C from rfl, show ((R:ℤ)).toNat = R from rfl]
    rw [List.flatMap_def, List.flatMap_def]
    apply congrArg List.flatten
    apply List.map_congr_left
    intro i hi
    rw [List.filterMap_congr (fun j hj =>
      gridAssign_cell (s0 :: srest) R C d z0 c0 t0 ps sp i j hdx hdy hmem'
        (hlatmem i j (List.mem_range.mp hi) (List.mem_range.mp hj)))]
    rw [show (fun j : ℕ => some
        (⟨⟨(i:ℚ)*d.x, (j:ℚ)*d.y, z0, c0, t0⟩, d, ps, sp⟩ : TileQ)) =
      some ∘ (fun j : ℕ =>
        (⟨⟨(i:ℚ)*d.x, (j:ℚ)*d.y, z0, c0, t0⟩, d, ps, sp⟩ : TileQ)) from rfl,
      List.filterMap_eq_map]
  have houtperm : ((List.range C).flatMap (fun i : ℕ => (List.range R).map (fun j : ℕ =>
      (⟨⟨(i:ℚ)*d.x, (j:ℚ)*d.y, z0, c0, t0⟩, d, ps, sp⟩ : TileQ)))).Perm (t1 :: rest) := by
    refine List.Perm.trans ?_ hperm.symm
    refine List.Perm.trans (flatMap_range_swap_perm (fun i j =>
      (⟨⟨(i:ℚ)*d.x, (j:ℚ)*d.y, z0, c0, t0⟩, d, ps, sp⟩ : TileQ)) C R) ?_
    rw [latticeTiles]
  have hr : resolve_grid_tiles_overlap (t1 :: rest)
      ⟨d.x, d.y, d.x, d.y, (C:ℤ), (R:ℤ)⟩ =
      Except.ok ((List.range C).flatMap (fun i : ℕ => (List.range R).map (fun j : ℕ =>
        (⟨⟨(i:ℚ)*d.x, (j:ℚ)*d.y, z0, c0, t0⟩, d, ps, sp⟩ : TileQ)))) := by
    simp only [resolve_grid_tiles_overlap]
    rw [hassign, if_neg (not_not_intro houtperm.length_eq)]
  refine ⟨_, ?_, houtperm⟩
  unfold resolve_grid_mode
  rw [hcheck]
  exact hr

/-- Witness for C6: the gapless 2×2 unit pixel lattice is a fixed point of
grid-mode resolution up to enumeration order. -/
theorem grid_snap_idempotent_witness :
    (2 ≤ 2 ∧ epsGrid < ((⟨1, 1, 1, 1, 1⟩ : VectorQ)).x) ∧
    ∃ out, resolve_grid_mode (latticeTiles 2 2 1 1 ⟨1, 1, 1, 1, 1⟩ 0 0 0 ⟨1, 1, 1⟩
        TileSpaceQ.pixel) = Except.ok out ∧
      out.Perm (latticeTiles 2 2 1 1 ⟨1, 1, 1, 1, 1⟩ 0 0 0 ⟨1, 1, 1⟩
        TileSpaceQ.pixel) :=
  ⟨⟨le_refl 2, by norm_num [epsGrid]⟩,
    grid_snap_idempotent 2 2 ⟨1, 1, 1, 1, 1⟩ 0 0 0 ⟨1, 1, 1⟩ TileSpaceQ.pixel _
      (le_refl 2) (le_refl 2) (by norm_num [epsGrid]) (by norm_num [epsGrid])
      (List.Perm.refl _)⟩
